import Mathlib

/-!
Verification of the SSSP engine specification against the
`optimized-sssp` repository.

The repository ships a Python ctypes wrapper (`rust_sssp.py`), tests and
benchmark harnesses; the solver core itself (the shared library behind the
FFI symbols `sssp_run_baseline`, `sssp_run_stoc`, ...) is not part of the
source tree.  The solvers are therefore modelled from the specification
(sections 4.2-4.6): CSR graphs with exact rational weights, a baseline
labeling solver with a lazily-deleted priority queue, the bucket-based
delta-stepping solver with light/heavy phases, the k-hop batch relaxer,
the autotune wrapper and the adaptive controller.  The Python wrapper
functions that are present in the source are embedded directly.
-/

set_option allowUnsafeReducibility true in
attribute [semireducible] Rat.add Rat.mul Rat.inv Rat.sub

/-- CSR graph: `offsets[0..n]`, `targets[0..m]`, `weights[0..m]`; the
out-edges of vertex `u` are the slice `[offsets[u], offsets[u+1])` of the
parallel target/weight arrays (spec section 3). Weights are modelled as
exact rationals (the spec's binary32 reals with reassociation freedom). -/
structure CSR where
  offsets : List ℕ
  targets : List ℕ
  weights : List ℚ
deriving DecidableEq

/-- Number of vertices of a CSR graph (`offsets` has length `n+1`). -/
def CSR.n (G : CSR) : ℕ := G.offsets.length - 1

/-- Number of edges of a CSR graph. -/
def CSR.m (G : CSR) : ℕ := G.targets.length

/-- Out-edges of vertex `u`: the slice `[offsets[u], offsets[u+1])` of the
zipped target/weight arrays (spec sections 3 and 4.7). -/
def outEdges (G : CSR) (u : ℕ) : List (ℕ × ℚ) :=
  let a := G.offsets.getD u 0
  let b := G.offsets.getD (u + 1) 0
  ((G.targets.zip G.weights).drop a).take (b - a)

/-- All weights of the graph are non-negative (spec section 3; a negative
weight is a fatal input error per section 7). -/
def NonnegW (G : CSR) : Prop := ∀ w ∈ G.weights, 0 ≤ w

instance (G : CSR) : Decidable (NonnegW G) := by
  unfold NonnegW; infer_instance

/-- `PathW G s v q` holds when there is a directed path from `s` to `v`
whose edge weights sum (in order) to `q`. -/
inductive PathW (G : CSR) (s : ℕ) : ℕ → ℚ → Prop where
  | refl : PathW G s s 0
  | step {u v : ℕ} {q w : ℚ} :
      PathW G s u q → (v, w) ∈ outEdges G u → PathW G s v (q + w)

lemma weight_mem_of_mem_outEdges {G : CSR} {u v : ℕ} {w : ℚ}
    (h : (v, w) ∈ outEdges G u) : w ∈ G.weights := by
  unfold outEdges at h
  have h1 : (v, w) ∈ (G.targets.zip G.weights).drop (G.offsets.getD u 0) :=
    List.take_subset _ _ h
  have h2 : (v, w) ∈ G.targets.zip G.weights := List.drop_subset _ _ h1
  exact (List.of_mem_zip h2).2

lemma PathW.nonneg {G : CSR} (hw : NonnegW G) {s v : ℕ} {q : ℚ}
    (h : PathW G s v q) : 0 ≤ q := by
  induction h with
  | refl => exact le_refl 0
  | step hp he ih =>
      have hw' := hw _ (weight_mem_of_mem_outEdges he)
      linarith

/-- A distance labeling is sound when every assigned finite distance is
realized by an actual path from the source. -/
def Sound (G : CSR) (s : ℕ) (dist : ℕ → Option ℚ) : Prop :=
  ∀ v q, dist v = some q → PathW G s v q

/-- A distance labeling is saturated when the source is labeled `0` and no
edge can improve any label (no tense edge remains). -/
def Sat (G : CSR) (s : ℕ) (dist : ℕ → Option ℚ) : Prop :=
  dist s = some 0 ∧
    ∀ u qu, dist u = some qu → ∀ p ∈ outEdges G u,
      ∃ qv, dist p.1 = some qv ∧ qv ≤ qu + p.2

lemma Sat.le_path {G : CSR} {s : ℕ} {dist : ℕ → Option ℚ}
    (hd : Sat G s dist) {v : ℕ} {q : ℚ} (hp : PathW G s v q) :
    ∃ qv, dist v = some qv ∧ qv ≤ q := by
  induction hp with
  | refl => exact ⟨0, hd.1, le_refl 0⟩
  | step hp he ih =>
      obtain ⟨qu, hqu, hle⟩ := ih
      obtain ⟨qv, hqv, hle'⟩ := hd.2 _ _ hqu _ he
      exact ⟨qv, hqv, by linarith⟩

/-- Any two sound and saturated distance labelings agree everywhere: both
assign the exact shortest-path distances, so they are unique. -/
theorem dist_unique {G : CSR} {s : ℕ} {d₁ d₂ : ℕ → Option ℚ}
    (hs₁ : Sound G s d₁) (ht₁ : Sat G s d₁)
    (hs₂ : Sound G s d₂) (ht₂ : Sat G s d₂) :
    ∀ v, d₁ v = d₂ v := by
  intro v
  cases h₂ : d₂ v with
  | none =>
      cases h₁ : d₁ v with
      | none => rfl
      | some q₁ =>
          obtain ⟨qv, hqv, _⟩ := ht₂.le_path (hs₁ v q₁ h₁)
          rw [h₂] at hqv; cases hqv
  | some q₂ =>
      obtain ⟨qv₁, hqv₁, hle₁⟩ := ht₁.le_path (hs₂ v q₂ h₂)
      obtain ⟨qv₂, hqv₂, hle₂⟩ := ht₂.le_path (hs₁ v qv₁ hqv₁)
      rw [h₂] at hqv₂
      cases hqv₂
      rw [hqv₁]
      exact congrArg some (le_antisymm hle₁ hle₂)

/-- Pointwise decrease of distance labelings: every finite label stays
finite and does not increase.  All relaxation steps of all solvers refine
labelings along this order. -/
def PDec (d d' : ℕ → Option ℚ) : Prop :=
  ∀ y q, d y = some q → ∃ q', d' y = some q' ∧ q' ≤ q

lemma pdec_self (d : ℕ → Option ℚ) : PDec d d :=
  fun _ q h => ⟨q, h, le_refl q⟩

lemma pdec_comp {d₁ d₂ d₃ : ℕ → Option ℚ} (h₁ : PDec d₁ d₂)
    (h₂ : PDec d₂ d₃) : PDec d₁ d₃ := by
  intro y q h
  obtain ⟨q', h', hle⟩ := h₁ y q h
  obtain ⟨q'', h'', hle'⟩ := h₂ y q' h'
  exact ⟨q'', h'', le_trans hle' hle⟩

/-- One-vertex relaxation of a non-increasing labeling: set `v` to `nd`,
provided this does not increase an existing label. -/
lemma PDec.update {d : ℕ → Option ℚ} {v : ℕ} {nd : ℚ}
    (h : ∀ qv, d v = some qv → nd ≤ qv) :
    PDec d (fun x => if x = v then some nd else d x) := by
  intro y q hy
  by_cases hv : y = v
  · subst hv
    exact ⟨nd, by simp, h q hy⟩
  · exact ⟨q, by simp [hv, hy], le_refl q⟩

/-!
Bucket indexing.  Delta-stepping addresses buckets by `⌊dist/δ⌋`
(spec section 4.3); the index is clamped to the current cursor on
insertion (spec section 9, floating-point bucket indexing note).
-/

/-- Bucket key of a distance value: `⌊q/δ⌋`, as a natural number. -/
def bkey (δ q : ℚ) : ℕ := (⌊q / δ⌋).toNat

lemma bkey_mul_le {δ q : ℚ} (hδ : 0 < δ) (hq : 0 ≤ q) :
    (bkey δ q : ℚ) * δ ≤ q := by
  have h0 : (0 : ℚ) ≤ q / δ := div_nonneg hq hδ.le
  have hfl : (0 : ℤ) ≤ ⌊q / δ⌋ := Int.floor_nonneg.mpr h0
  have hcast : ((bkey δ q : ℕ) : ℚ) = ((⌊q / δ⌋ : ℤ) : ℚ) := by
    unfold bkey
    exact_mod_cast congrArg (fun z : ℤ => (z : ℚ)) (Int.toNat_of_nonneg hfl)
  calc (bkey δ q : ℚ) * δ = ((⌊q / δ⌋ : ℤ) : ℚ) * δ := by rw [hcast]
    _ ≤ (q / δ) * δ := mul_le_mul_of_nonneg_right (Int.floor_le _) hδ.le
    _ = q := div_mul_cancel₀ q hδ.ne'

lemma lt_bkey_succ_mul {δ q : ℚ} (hδ : 0 < δ) (hq : 0 ≤ q) :
    q < ((bkey δ q : ℚ) + 1) * δ := by
  have h0 : (0 : ℚ) ≤ q / δ := div_nonneg hq hδ.le
  have hfl : (0 : ℤ) ≤ ⌊q / δ⌋ := Int.floor_nonneg.mpr h0
  have hcast : ((bkey δ q : ℕ) : ℚ) = ((⌊q / δ⌋ : ℤ) : ℚ) := by
    unfold bkey
    exact_mod_cast congrArg (fun z : ℤ => (z : ℚ)) (Int.toNat_of_nonneg hfl)
  have h1 : q / δ < (⌊q / δ⌋ : ℚ) + 1 := Int.lt_floor_add_one _
  have h2 : q < ((⌊q / δ⌋ : ℚ) + 1) * δ := (div_lt_iff₀ hδ).mp h1
  rw [hcast]; exact h2

lemma le_bkey_of_mul_le {δ q : ℚ} {i : ℕ} (hδ : 0 < δ)
    (h : (i : ℚ) * δ ≤ q) : i ≤ bkey δ q := by
  have h1 : (i : ℚ) ≤ q / δ := (le_div_iff₀ hδ).mpr h
  have h2 : (i : ℤ) ≤ ⌊q / δ⌋ := Int.le_floor.mpr (by exact_mod_cast h1)
  unfold bkey
  omega

/-!
Delta-stepping solver state (spec sections 3, 4.3).  Bucket entries are
kept as a flat list of `(bucketKey, vertex, storedDistance)` triples;
bucket `B_k` is the sublist with key `k`.  Stale entries (stored distance
no longer equal to the current tentative distance) are tolerated and
filtered on extraction, per the spec's stale-entry policy.
-/

structure BState where
  dist : ℕ → Option ℚ
  entries : List (ℕ × ℕ × ℚ)
  cursor : ℕ
  relaxations : ℕ
  lightRelax : ℕ
  heavyRelax : ℕ
  settled : ℕ
  bucketsVisited : ℕ
  lightPassRepeats : ℕ
  maxBucketIndex : ℕ

/-- Modelled from the spec: write an improved tentative distance `nd` for
vertex `v`, record the predecessor-free relaxation counters and insert `v`
into bucket `max ⌊nd/δ⌋ i` (the clamp of spec section 9).  `isLight`
selects which relaxation counter is incremented (spec section 4.3). -/
def upd (δ : ℚ) (i : ℕ) (isLight : Bool) (st : BState) (v : ℕ) (nd : ℚ) :
    BState :=
  { st with
    dist := fun x => if x = v then some nd else st.dist x
    entries := (max (bkey δ nd) i, v, nd) :: st.entries
    relaxations := st.relaxations + 1
    lightRelax := st.lightRelax + (if isLight then 1 else 0)
    heavyRelax := st.heavyRelax + (if isLight then 0 else 1) }

/-- Modelled from the spec: relax one out-edge `p = (v, w)` from a vertex
whose current tentative distance is `d`; update only on strict
improvement (spec sections 4.2-4.3: distance comparisons use strict `<`). -/
def relaxBk (isLight : Bool) (δ : ℚ) (i : ℕ) (d : ℚ) (st : BState)
    (p : ℕ × ℚ) : BState :=
  match st.dist p.1 with
  | some qv => if d + p.2 < qv then upd δ i isLight st p.1 (d + p.2) else st
  | none => upd δ i isLight st p.1 (d + p.2)

/-- Light out-edges of `u`: weight at most `δ` (spec section 4.3). -/
def lightOut (G : CSR) (δ : ℚ) (u : ℕ) : List (ℕ × ℚ) :=
  (outEdges G u).filter (fun p => p.2 ≤ δ)

/-- Heavy out-edges of `u`: weight strictly above `δ` (spec section 4.3). -/
def heavyOut (G : CSR) (δ : ℚ) (u : ℕ) : List (ℕ × ℚ) :=
  (outEdges G u).filter (fun p => δ < p.2)

/-- Modelled from the spec: process one extracted bucket entry during the
light phase of bucket `i`.  A stale entry (stored distance differs from
the current one) is ignored; a fresh one counts as settled, joins the
request set `R` and has its light out-edges relaxed (spec section 4.3a). -/
def drainE (G : CSR) (δ : ℚ) (i : ℕ) (acc : BState × List ℕ)
    (e : ℕ × ℕ × ℚ) : BState × List ℕ :=
  let st := acc.1
  if st.dist e.2.1 = some e.2.2 then
    let st₁ := { st with settled := st.settled + 1 }
    ((lightOut G δ e.2.1).foldl (relaxBk true δ i e.2.2) st₁,
      acc.2 ++ [e.2.1])
  else acc

/-- Modelled from the spec: the light phase of bucket `i` — repeatedly
drain `B_i`, relaxing light out-edges of each fresh entry, for at most
`passes` passes or until `B_i` stays empty (spec section 4.3a; the pass
bound is the hop bound `k` of the k-hop batch relaxer, spec section 4.4).
Returns the new state and the accumulated request set `R`. -/
def lightLoop (G : CSR) (δ : ℚ) (i : ℕ) :
    ℕ → Bool → BState → List ℕ → BState × List ℕ
  | 0, _, st, R => (st, R)
  | p + 1, first, st, R =>
      let cur := st.entries.filter (fun e => e.1 == i)
      if cur.isEmpty then (st, R)
      else
        let st₀ := { st with
          entries := st.entries.filter (fun e => !(e.1 == i)),
          lightPassRepeats := st.lightPassRepeats + (if first then 0 else 1) }
        let a := cur.foldl (drainE G δ i) (st₀, R)
        lightLoop G δ i p false a.1 a.2

/-- Modelled from the spec: relax the heavy out-edges of one member of
the request set `R`, at its current tentative distance (heavy phase,
spec section 4.3c). -/
def heavyE (G : CSR) (δ : ℚ) (i : ℕ) (st : BState) (u : ℕ) : BState :=
  match st.dist u with
  | some q => (heavyOut G δ u).foldl (relaxBk false δ i q) st
  | none => st

/-- Least bucket key present among the entries. -/
def minKey (entries : List (ℕ × ℕ × ℚ)) : Option ℕ :=
  entries.foldr
    (fun e acc =>
      match acc with
      | none => some e.1
      | some a => some (min e.1 a)) none

/-- Modelled from the spec: process one bucket of the delta-stepping main
loop — move the cursor to the least non-empty bucket, run the light phase
(at most `passLimit` passes), snapshot `R`, then run the heavy phase
(spec section 4.3, steps 2a-2d). -/
def bumpCursor (st : BState) (i : ℕ) : BState :=
  { st with
    cursor := i
    bucketsVisited := st.bucketsVisited + 1
    maxBucketIndex := max st.maxBucketIndex i }

def stepOuter (G : CSR) (δ : ℚ) (passLimit : ℕ) (st : BState) : BState :=
  match minKey st.entries with
  | none => st
  | some i =>
      let a := lightLoop G δ i passLimit true (bumpCursor st i) []
      a.2.foldl (heavyE G δ i) a.1

/-- Modelled from the spec: the delta-stepping main loop, with explicit
fuel; terminates (returns `some`) when no bucket at or above the cursor is
non-empty (spec section 4.3, step 3). -/
def runBk (G : CSR) (δ : ℚ) (passLimit : ℕ) :
    ℕ → BState → Option BState
  | 0, st => if st.entries.isEmpty then some st else none
  | f + 1, st =>
      if st.entries.isEmpty then some st
      else runBk G δ passLimit f (stepOuter G δ passLimit st)

/-- Initial solve state: `dist[s] = 0`, source in bucket `B₀`, all
counters zero (spec section 4.3, step 1). -/
def initB (s : ℕ) : BState :=
  { dist := fun v => if v = s then some 0 else none
    entries := [(0, s, 0)]
    cursor := 0, relaxations := 0, lightRelax := 0, heavyRelax := 0
    settled := 0, bucketsVisited := 0, lightPassRepeats := 0
    maxBucketIndex := 0 }

/-- Final distance output: the tentative-distance array restricted to the
`n` vertices of the graph (`none` encodes `+∞`). -/
def distsOf (G : CSR) (dist : ℕ → Option ℚ) : List (Option ℚ) :=
  (List.range G.n).map dist

/-- Modelled from the spec: default step parameter
`δ = max(w̄/2, w_min)` where `w̄` is the mean edge weight and `w_min` the
minimum positive weight, with a positive floor of 1 when no positive
weight exists (spec section 4.3, parameters). -/
def deltaDefault (G : CSR) : ℚ :=
  let pos := G.weights.filter (fun w => 0 < w)
  let wmin := match pos with
    | [] => 1
    | w :: ws => ws.foldl min w
  let mean := if G.m = 0 then 0 else G.weights.sum / (G.m : ℚ)
  max (mean / 2) wmin

/-- Modelled from the spec: the delta-stepping solve entry point (FFI
symbol `sssp_run_stoc`); light passes drain each bucket until empty, so
the pass limit is the fuel itself. -/
def runStoc (G : CSR) (s fuel : ℕ) : Option (List (Option ℚ)) :=
  (runBk G (deltaDefault G) fuel fuel (initB s)).map
    (fun st => distsOf G st.dist)

/-- Default hop count of the k-hop batch relaxer (`khop_k`, spec
section 6). -/
def khopK : ℕ := 3

/-- Modelled from the spec: the k-hop batch relaxer entry point (FFI
symbol `sssp_run_khop`): identical to delta-stepping except that each
bucket is drained in at most `khopK` breadth layers before the heavy
edges are relaxed; a residual bucket is simply re-processed (spec
section 4.4). -/
def runKhop (G : CSR) (s fuel : ℕ) : Option (List (Option ℚ)) :=
  (runBk G (deltaDefault G) khopK fuel (initB s)).map
    (fun st => distsOf G st.dist)

/-- Modelled from the spec: pick the candidate δ multiplier whose probe
wall time is minimal (spec section 4.5).  Wall times are outside the
functional model, so they enter as an explicit oracle `times`, one
measurement per candidate; ties keep the earlier candidate.  An empty
candidate set falls back to multiplier 1. -/
def chooseMult (mults times : List ℚ) : ℚ :=
  match mults.zip times with
  | [] => 1
  | p :: ps => (ps.foldl (fun best q => if q.2 < best.2 then q else best) p).1

/-- Modelled from the spec: the autotune solve entry point (FFI symbol
`sssp_run_stoc_autotune`): probe each candidate δ (the probes only
produce the wall times, injected here as the oracle `times`), select the
fastest, and run the delta-stepping solver to completion with the chosen
δ (spec section 4.5). -/
def runStocAutotune (G : CSR) (s : ℕ) (mults times : List ℚ) (fuel : ℕ) :
    Option (List (Option ℚ)) :=
  (runBk G (deltaDefault G * chooseMult mults times) fuel fuel
      (initB s)).map (fun st => distsOf G st.dist)

/-- Bounded bucket iteration: run at most `k` outer bucket steps, and
report whether the solve already terminated (all buckets empty). -/
def runBkN (G : CSR) (δ : ℚ) (passLimit : ℕ) :
    ℕ → BState → BState × Bool
  | 0, st => (st, st.entries.isEmpty)
  | k + 1, st =>
      if st.entries.isEmpty then (st, true)
      else runBkN G δ passLimit k (stepOuter G δ passLimit st)

/-- Result record of the adaptive variant: final distances, the number of
restarts performed, the heavy-ratio observed at the probe-window
inspection (when the probe window was reached) and the final cumulative
heavy-ratio. -/
structure AdaptResult where
  dists : List (Option ℚ)
  restarts : ℕ
  probeFrac : Option ℚ
  heavyFrac : ℚ
deriving DecidableEq

/-- Heavy-ratio of a solve state:
`heavy_relaxations / max(1, heavy_relaxations + light_relaxations)`
(spec section 4.3). -/
def heavyFracOf (st : BState) : ℚ :=
  (st.heavyRelax : ℚ) / (max 1 (st.heavyRelax + st.lightRelax) : ℕ)

/-- Modelled from the spec: one attempt of the adaptive controller — run
the delta-stepping loop for a probe window of `W` buckets; if the solve
already finished, return; otherwise inspect the heavy-ratio and either
restart with a rescaled δ (doubling when the ratio is too high, halving
when too low, while under the restart cap) or continue the same solve to
completion (spec section 4.6). -/
def adaptGo (G : CSR) (s W fuel : ℕ) (Rlo Rhi : ℚ) (cap : ℕ) :
    ℕ → ℚ → ℕ → Option AdaptResult
  | 0, _, _ => none
  | a + 1, δ, used =>
      if (runBkN G δ fuel W (initB s)).2 then
        some ⟨distsOf G (runBkN G δ fuel W (initB s)).1.dist, used, none,
          heavyFracOf (runBkN G δ fuel W (initB s)).1⟩
      else if (heavyFracOf (runBkN G δ fuel W (initB s)).1 < Rlo ∨
          Rhi < heavyFracOf (runBkN G δ fuel W (initB s)).1) ∧ used < cap then
        adaptGo G s W fuel Rlo Rhi cap a
          (if Rhi < heavyFracOf (runBkN G δ fuel W (initB s)).1 then 2 * δ
            else δ / 2) (used + 1)
      else
        match runBk G δ fuel fuel (runBkN G δ fuel W (initB s)).1 with
        | some stF =>
            some ⟨distsOf G stF.dist, used,
              some (heavyFracOf (runBkN G δ fuel W (initB s)).1),
              heavyFracOf stF⟩
        | none => none

/-- Modelled from the spec: the unified autotune+adaptive solve entry
point (FFI symbol `sssp_run_stoc_auto_adapt`), starting from the default
δ with zero restarts (spec section 4.6). -/
def runStocAutoAdapt (G : CSR) (s fuel W : ℕ) (Rlo Rhi : ℚ) (cap : ℕ) :
    Option AdaptResult :=
  adaptGo G s W fuel Rlo Rhi cap (cap + 1) (deltaDefault G) 0

/-- Default probe window of the adaptive controller (spec section 4.6). -/
def probeWindowDefault : ℕ := 16

/-- Default heavy-ratio band `[R_lo, R_hi]` (spec sections 4.3 and 6). -/
def bandLoDefault : ℚ := 1 / 20

/-- Default upper edge of the heavy-ratio band. -/
def bandHiDefault : ℚ := 1 / 4

/-- Default restart cap of the adaptive controller (spec section 6). -/
def restartCapDefault : ℕ := 2

/-- Unbounded outer iteration of the delta-stepping loop (for stating
invariants that hold throughout a solve): iterate `stepOuter`, freezing
once all buckets are empty. -/
def iterOuter (G : CSR) (δ : ℚ) (passLimit : ℕ) : ℕ → BState → BState
  | 0, st => st
  | k + 1, st =>
      if st.entries.isEmpty then st
      else iterOuter G δ passLimit k (stepOuter G δ passLimit st)

/-!
Baseline solver (spec sections 4.1-4.2): a labeling solver over a
min-priority queue with lazy deletion. The queue holds `(distance,
vertex)` pairs; superseded entries remain and are discarded on pop.
-/

structure DState where
  dist : ℕ → Option ℚ
  heap : List (ℚ × ℕ)
  relaxations : ℕ
  lightRelax : ℕ
  heavyRelax : ℕ
  settled : ℕ

/-- Modelled from the spec: extract a minimum-key entry from the queue,
returning it together with the remaining entries (spec section 4.1). -/
def popMin : List (ℚ × ℕ) → Option ((ℚ × ℕ) × List (ℚ × ℕ))
  | [] => none
  | x :: xs =>
      match popMin xs with
      | none => some (x, [])
      | some (m, r) => if x.1 ≤ m.1 then some (x, xs) else some (m, x :: r)

lemma popMin_none {l : List (ℚ × ℕ)} (h : popMin l = none) : l = [] := by
  cases l with
  | nil => rfl
  | cons x xs =>
      unfold popMin at h
      cases hx : popMin xs with
      | none => rw [hx] at h; cases h
      | some pr =>
          rw [hx] at h
          by_cases hle : x.1 ≤ pr.1.1 <;> simp [hle] at h

lemma popMin_perm {l : List (ℚ × ℕ)} {e : ℚ × ℕ} {r : List (ℚ × ℕ)}
    (h : popMin l = some (e, r)) : l.Perm (e :: r) := by
  induction l generalizing e r with
  | nil => cases h
  | cons x xs ih =>
      unfold popMin at h
      cases hx : popMin xs with
      | none =>
          rw [hx] at h
          cases h
          have := popMin_none hx
          subst this
          exact List.Perm.refl _
      | some pr =>
          rw [hx] at h
          by_cases hle : x.1 ≤ pr.1.1
          · simp only [hle, if_true] at h
            cases h
            exact List.Perm.refl _
          · simp only [hle, if_false] at h
            cases h
            have hperm := ih (e := pr.1) (r := pr.2) (by rw [hx])
            exact (hperm.cons x).trans (List.Perm.swap pr.1 x pr.2)

/-- Modelled from the spec: relax one out-edge `(v, w)` from a popped
vertex with key `d`; on strict improvement write the distance, push a new
queue entry and count the relaxation (spec section 4.2, step 2). -/
def relaxD (d : ℚ) (st : DState) (p : ℕ × ℚ) : DState :=
  let nd := d + p.2
  let write : DState :=
    { st with
      dist := fun x => if x = p.1 then some nd else st.dist x
      heap := (nd, p.1) :: st.heap
      relaxations := st.relaxations + 1 }
  match st.dist p.1 with
  | some qv => if nd < qv then write else st
  | none => write

/-- Modelled from the spec: one iteration of the baseline loop — pop a
minimum entry; discard it when stale (`d > dist[u]`), otherwise settle
`u` and relax all its out-edges (spec section 4.2, step 2). -/
def stepD (G : CSR) (st : DState) : DState :=
  match popMin st.heap with
  | none => st
  | some (e, rest) =>
      let st₁ := { st with heap := rest }
      match st₁.dist e.2 with
      | none => st₁
      | some q =>
          if q < e.1 then st₁
          else (outEdges G e.2).foldl (relaxD e.1)
            { st₁ with settled := st₁.settled + 1 }

/-- Modelled from the spec: the baseline main loop with explicit fuel;
terminates when the queue is empty (spec section 4.2, step 3). -/
def runD (G : CSR) : ℕ → DState → Option DState
  | 0, st => if st.heap.isEmpty then some st else none
  | f + 1, st =>
      if st.heap.isEmpty then some st
      else runD G f (stepD G st)

/-- Initial baseline state: `dist[s] = 0`, `(0, s)` pushed (spec
section 4.2, step 1). -/
def initD (s : ℕ) : DState :=
  { dist := fun v => if v = s then some 0 else none
    heap := [(0, s)]
    relaxations := 0, lightRelax := 0, heavyRelax := 0, settled := 0 }

/-- Modelled from the spec: the baseline solve entry point (FFI symbol
`sssp_run_baseline`). -/
def runBaseline (G : CSR) (s fuel : ℕ) : Option (List (Option ℚ)) :=
  (runD G fuel (initD s)).map (fun st => distsOf G st.dist)

/-- Unbounded iteration of the baseline loop (for invariants that hold
throughout a solve). -/
def iterD (G : CSR) : ℕ → DState → DState
  | 0, st => st
  | k + 1, st =>
      if st.heap.isEmpty then st
      else iterD G k (stepD G st)

/-!
Invariants of the bucket solver.  The correctness argument: every state
reachable by the solver is *sound* (all labels are path weights) and
*covered* (every labeled vertex either still has a fresh bucket entry or
has all its out-edges relaxed).  At termination the buckets are empty, so
the final labeling is sound and saturated, hence (by `dist_unique`) equal
to every other sound and saturated labeling.
-/

/-- Vertex `x` has a fresh entry carrying its current label `qx`. -/
def EntryW (st : BState) (x : ℕ) (qx : ℚ) : Prop :=
  ∃ k, (k, x, qx) ∈ st.entries

/-- All edges in `es` are relaxed with respect to source label `qu`. -/
def RelOn (dist : ℕ → Option ℚ) (qu : ℚ) (es : List (ℕ × ℚ)) : Prop :=
  ∀ p ∈ es, ∃ qv, dist p.1 = some qv ∧ qv ≤ qu + p.2

/-- All out-edges of `u` are relaxed at label `qu`. -/
def AllRel (G : CSR) (dist : ℕ → Option ℚ) (u : ℕ) (qu : ℚ) : Prop :=
  RelOn dist qu (outEdges G u)

/-- All light out-edges of `u` are relaxed at label `qu`. -/
def LightRelOn (G : CSR) (δ : ℚ) (dist : ℕ → Option ℚ) (u : ℕ) (qu : ℚ) :
    Prop :=
  RelOn dist qu (lightOut G δ u)

/-- Bucket entries carry non-negative stored distances filed under their
key `⌊d/δ⌋` (the clamp of spec section 9 never fires in exact
arithmetic). -/
def KInv (δ : ℚ) (entries : List (ℕ × ℕ × ℚ)) : Prop :=
  ∀ e ∈ entries, 0 ≤ e.2.2 ∧ e.1 = bkey δ e.2.2

/-- Soundness, source label, and the entry-key invariant. -/
def CoreInv (G : CSR) (s : ℕ) (δ : ℚ) (st : BState) : Prop :=
  Sound G s st.dist ∧ st.dist s = some 0 ∧ KInv δ st.entries

/-- Request-set members keep labels inside the current bucket's span
`[i·δ, (i+1)·δ)`. -/
def RRange (δ : ℚ) (i : ℕ) (st : BState) (R : List ℕ) : Prop :=
  ∀ x ∈ R, ∃ qx, st.dist x = some qx ∧
    (i : ℚ) * δ ≤ qx ∧ qx < ((i : ℚ) + 1) * δ

/-- Between bucket phases: every labeled vertex has a fresh entry or has
all its out-edges relaxed. -/
def BCov (G : CSR) (st : BState) : Prop :=
  ∀ x qx, st.dist x = some qx → EntryW st x qx ∨ AllRel G st.dist x qx

/-- The main bucket-solver invariant. -/
def BInv (G : CSR) (s : ℕ) (δ : ℚ) (st : BState) : Prop :=
  CoreInv G s δ st ∧ BCov G st

/-- Mid-bucket coverage: request-set members may still owe their heavy
relaxations. -/
def MCov (G : CSR) (δ : ℚ) (st : BState) (R : List ℕ) : Prop :=
  ∀ x qx, st.dist x = some qx →
    EntryW st x qx ∨ (x ∈ R ∧ LightRelOn G δ st.dist x qx) ∨
      AllRel G st.dist x qx

lemma RelOn.mono {d d' : ℕ → Option ℚ} {qu : ℚ} {es : List (ℕ × ℚ)}
    (hP : PDec d d') (h : RelOn d qu es) : RelOn d' qu es := by
  intro p hp
  obtain ⟨qv, hqv, hle⟩ := h p hp
  obtain ⟨qv', hqv', hle'⟩ := hP _ _ hqv
  exact ⟨qv', hqv', le_trans hle' hle⟩

lemma mem_outEdges_of_mem_lightOut {G : CSR} {δ : ℚ} {u : ℕ} {p : ℕ × ℚ}
    (h : p ∈ lightOut G δ u) : p ∈ outEdges G u :=
  (List.mem_filter.mp h).1

lemma mem_outEdges_of_mem_heavyOut {G : CSR} {δ : ℚ} {u : ℕ} {p : ℕ × ℚ}
    (h : p ∈ heavyOut G δ u) : p ∈ outEdges G u :=
  (List.mem_filter.mp h).1

lemma weight_lt_of_mem_heavyOut {G : CSR} {δ : ℚ} {u : ℕ} {p : ℕ × ℚ}
    (h : p ∈ heavyOut G δ u) : δ < p.2 := by
  have := (List.mem_filter.mp h).2
  exact of_decide_eq_true this

lemma mem_light_or_heavy {G : CSR} {δ : ℚ} {u : ℕ} {p : ℕ × ℚ}
    (h : p ∈ outEdges G u) : p ∈ lightOut G δ u ∨ p ∈ heavyOut G δ u := by
  by_cases hw : p.2 ≤ δ
  · exact Or.inl (List.mem_filter.mpr ⟨h, decide_eq_true hw⟩)
  · exact Or.inr (List.mem_filter.mpr ⟨h, decide_eq_true (not_le.mp hw)⟩)

lemma AllRel.of_parts {G : CSR} {δ : ℚ} {dist : ℕ → Option ℚ} {u : ℕ}
    {qu : ℚ} (hl : LightRelOn G δ dist u qu)
    (hh : RelOn dist qu (heavyOut G δ u)) : AllRel G dist u qu := by
  intro p hp
  cases mem_light_or_heavy (δ := δ) hp with
  | inl h => exact hl p h
  | inr h => exact hh p h

lemma relaxBk_cases (L : Bool) (δ : ℚ) (i : ℕ) (d : ℚ) (st : BState)
    (p : ℕ × ℚ) :
    (relaxBk L δ i d st p = st ∧
        ∃ qv, st.dist p.1 = some qv ∧ qv ≤ d + p.2) ∨
      (relaxBk L δ i d st p = upd δ i L st p.1 (d + p.2) ∧
        ∀ qv, st.dist p.1 = some qv → d + p.2 < qv) := by
  unfold relaxBk
  cases h : st.dist p.1 with
  | none =>
      right
      exact ⟨rfl, fun qv hqv => by cases hqv⟩
  | some qv =>
      by_cases hlt : d + p.2 < qv
      · right
        refine ⟨by simp [hlt], ?_⟩
        intro qv' hqv'
        cases hqv'
        exact hlt
      · left
        exact ⟨by simp [hlt], ⟨qv, rfl, not_lt.mp hlt⟩⟩

lemma upd_dist_eval (δ : ℚ) (i : ℕ) (L : Bool) (st : BState) (v : ℕ)
    (nd : ℚ) (x : ℕ) :
    (upd δ i L st v nd).dist x = if x = v then some nd else st.dist x := rfl

lemma upd_entries_eval (δ : ℚ) (i : ℕ) (L : Bool) (st : BState) (v : ℕ)
    (nd : ℚ) :
    (upd δ i L st v nd).entries = (max (bkey δ nd) i, v, nd) :: st.entries :=
  rfl

lemma upd_dist_cases {δ : ℚ} {i : ℕ} {L : Bool} {st : BState} {v : ℕ}
    {nd : ℚ} {x : ℕ} {qx : ℚ}
    (h : (upd δ i L st v nd).dist x = some qx) :
    (x = v ∧ qx = nd) ∨ (x ≠ v ∧ st.dist x = some qx) := by
  rw [upd_dist_eval] at h
  by_cases hv : x = v
  · rw [if_pos hv] at h
    cases h
    exact Or.inl ⟨hv, rfl⟩
  · rw [if_neg hv] at h
    exact Or.inr ⟨hv, h⟩

lemma upd_pdec {δ : ℚ} {i : ℕ} {L : Bool} {st : BState} {v : ℕ} {nd : ℚ}
    (himp : ∀ qv, st.dist v = some qv → nd < qv) :
    PDec st.dist (upd δ i L st v nd).dist :=
  PDec.update (fun qv hqv => le_of_lt (himp qv hqv))

lemma upd_core {G : CSR} {s : ℕ} {δ : ℚ} {i : ℕ} {L : Bool} {st : BState}
    {v : ℕ} {nd : ℚ} (hδ : 0 < δ)
    (hC : CoreInv G s δ st) (hpath : PathW G s v nd)
    (hlo : (i : ℚ) * δ ≤ nd)
    (himp : ∀ qv, st.dist v = some qv → nd < qv) :
    CoreInv G s δ (upd δ i L st v nd) := by
  have hnn : (0 : ℚ) ≤ nd :=
    le_trans (mul_nonneg (Nat.cast_nonneg i) hδ.le) hlo
  obtain ⟨hS, hs0, hK⟩ := hC
  refine ⟨?_, ?_, ?_⟩
  · intro x qx hx
    rcases upd_dist_cases hx with ⟨hxv, hq⟩ | ⟨_, hq⟩
    · subst hxv; subst hq; exact hpath
    · exact hS _ _ hq
  · rw [upd_dist_eval]
    by_cases hv : s = v
    · exfalso
      subst hv
      exact absurd (himp 0 hs0) (not_lt.mpr hnn)
    · rw [if_neg hv]; exact hs0
  · intro e he
    rw [upd_entries_eval] at he
    rcases List.mem_cons.mp he with he | he
    · subst he
      exact ⟨hnn, max_eq_left (le_bkey_of_mul_le hδ hlo)⟩
    · exact hK e he

lemma mem_weights_snd {G : CSR} {u : ℕ} {p : ℕ × ℚ}
    (h : p ∈ outEdges G u) : p.2 ∈ G.weights := by
  obtain ⟨v, w⟩ := p
  exact weight_mem_of_mem_outEdges h

lemma PathW.step' {G : CSR} {s u : ℕ} {q : ℚ} (hp : PathW G s u q)
    {p : ℕ × ℚ} (he : p ∈ outEdges G u) : PathW G s p.1 (q + p.2) := by
  obtain ⟨v, w⟩ := p
  exact hp.step he

/-- Invariant carried through the light-edge fold of one drained vertex
`u` at label `d`: core invariants, the request-set range, and coverage
where every labeled vertex owns a fresh entry, a still-pending extracted
entry, a light-relaxed request-set membership, full relaxation, or is `u`
itself with the light edges outside `todo` already relaxed. -/
def LightPre (G : CSR) (s : ℕ) (δ : ℚ) (i u : ℕ) (d : ℚ)
    (todo : List (ℕ × ℚ)) (pending : List (ℕ × ℕ × ℚ))
    (st : BState) (R : List ℕ) : Prop :=
  st.dist u = some d ∧ CoreInv G s δ st ∧ RRange δ i st R ∧
  (∀ x qx, st.dist x = some qx →
    EntryW st x qx ∨ (i, x, qx) ∈ pending ∨
      (x ∈ R ∧ LightRelOn G δ st.dist x qx) ∨ AllRel G st.dist x qx ∨
      (x = u ∧ qx = d ∧ ∀ p ∈ lightOut G δ u, p ∈ todo ∨
        ∃ qv, st.dist p.1 = some qv ∧ qv ≤ d + p.2))

lemma foldLight_inv {G : CSR} {s : ℕ} {δ : ℚ} {i u : ℕ} {d : ℚ}
    (hδ : 0 < δ) (hw : NonnegW G)
    (hpath : PathW G s u d) (hdlo : (i : ℚ) * δ ≤ d) :
    ∀ (todo : List (ℕ × ℚ)) (st : BState) (R : List ℕ)
      (pending : List (ℕ × ℕ × ℚ)),
    (∀ p ∈ todo, p ∈ lightOut G δ u) →
    LightPre G s δ i u d todo pending st R →
    LightPre G s δ i u d [] pending
        (todo.foldl (relaxBk true δ i d) st) R ∧
      PDec st.dist (todo.foldl (relaxBk true δ i d) st).dist ∧
      (∀ e ∈ st.entries, e ∈ (todo.foldl (relaxBk true δ i d) st).entries) := by
  intro todo
  induction todo with
  | nil =>
      intro st R pending _ hpre
      exact ⟨hpre, pdec_self _, fun e he => he⟩
  | cons p rest ih =>
      intro st R pending htodo hpre
      obtain ⟨hu, hC, hR, hCov⟩ := hpre
      have hmem : p ∈ lightOut G δ u := htodo p (List.mem_cons_self _ _)
      have hout : p ∈ outEdges G u := mem_outEdges_of_mem_lightOut hmem
      have hwnn : (0 : ℚ) ≤ p.2 := hw _ (mem_weights_snd hout)
      rw [List.foldl_cons]
      rcases relaxBk_cases true δ i d st p with
        ⟨heq, qv, hqv, hle⟩ | ⟨heq, himp⟩
      · rw [heq]
        refine ih st R pending (fun p' hp' => htodo p' (List.mem_cons_of_mem _ hp')) ?_
        refine ⟨hu, hC, hR, ?_⟩
        intro x qx hx
        rcases hCov x qx hx with h | h | h | h | ⟨hxu, hqd, hcl⟩
        · exact Or.inl h
        · exact Or.inr (Or.inl h)
        · exact Or.inr (Or.inr (Or.inl h))
        · exact Or.inr (Or.inr (Or.inr (Or.inl h)))
        · refine Or.inr (Or.inr (Or.inr (Or.inr ⟨hxu, hqd, ?_⟩)))
          intro p' hp'
          rcases hcl p' hp' with hp'' | hb
          · rcases List.mem_cons.mp hp'' with hpp | hpr
            · subst hpp
              exact Or.inr ⟨qv, hqv, hle⟩
            · exact Or.inl hpr
          · exact Or.inr hb
      · rw [heq]
        have hlo' : (i : ℚ) * δ ≤ d + p.2 := by linarith
        have hpath' : PathW G s p.1 (d + p.2) := hpath.step' hout
        have hC₁ : CoreInv G s δ (upd δ i true st p.1 (d + p.2)) :=
          upd_core hδ hC hpath' hlo' himp
        have hPD : PDec st.dist (upd δ i true st p.1 (d + p.2)).dist :=
          upd_pdec himp
        have hne : u ≠ p.1 := by
          intro h
          rw [h] at hu
          have := himp d hu
          linarith
        have hu₁ : (upd δ i true st p.1 (d + p.2)).dist u = some d := by
          rw [upd_dist_eval, if_neg hne]
          exact hu
        have hR₁ : RRange δ i (upd δ i true st p.1 (d + p.2)) R := by
          intro x hx
          obtain ⟨qx, hqx, hqlo, hqhi⟩ := hR x hx
          by_cases hxp : x = p.1
          · subst hxp
            have hlt := himp qx hqx
            refine ⟨d + p.2, ?_, hlo', by linarith⟩
            rw [upd_dist_eval, if_pos rfl]
          · exact ⟨qx, by rw [upd_dist_eval, if_neg hxp]; exact hqx, hqlo, hqhi⟩
        have hCov₁ : ∀ x qx,
            (upd δ i true st p.1 (d + p.2)).dist x = some qx →
            EntryW (upd δ i true st p.1 (d + p.2)) x qx ∨
              (i, x, qx) ∈ pending ∨
              (x ∈ R ∧ LightRelOn G δ
                (upd δ i true st p.1 (d + p.2)).dist x qx) ∨
              AllRel G (upd δ i true st p.1 (d + p.2)).dist x qx ∨
              (x = u ∧ qx = d ∧ ∀ p' ∈ lightOut G δ u, p' ∈ rest ∨
                ∃ qv, (upd δ i true st p.1 (d + p.2)).dist p'.1 = some qv ∧
                  qv ≤ d + p'.2) := by
          intro x qx hx
          rcases upd_dist_cases hx with ⟨hxp, hq⟩ | ⟨hxp, hold⟩
          · subst hxp; subst hq
            refine Or.inl ⟨max (bkey δ (d + p.2)) i, ?_⟩
            rw [upd_entries_eval]
            exact List.mem_cons_self _ _
          · rcases hCov x qx hold with h | h | ⟨hxR, hLR⟩ | h | ⟨hxu, hqd, hcl⟩
            · obtain ⟨k, hk⟩ := h
              refine Or.inl ⟨k, ?_⟩
              rw [upd_entries_eval]
              exact List.mem_cons_of_mem _ hk
            · exact Or.inr (Or.inl h)
            · exact Or.inr (Or.inr (Or.inl ⟨hxR, hLR.mono hPD⟩))
            · exact Or.inr (Or.inr (Or.inr (Or.inl (h.mono hPD))))
            · refine Or.inr (Or.inr (Or.inr (Or.inr ⟨hxu, hqd, ?_⟩)))
              intro p' hp'
              rcases hcl p' hp' with hp'' | hb
              · rcases List.mem_cons.mp hp'' with hpp | hpr
                · subst hpp
                  refine Or.inr ⟨d + p'.2, ?_, le_refl _⟩
                  rw [upd_dist_eval, if_pos rfl]
                · exact Or.inl hpr
              · obtain ⟨qv, hqv, hlev⟩ := hb
                obtain ⟨qv', hqv', hlev'⟩ := hPD _ _ hqv
                exact Or.inr ⟨qv', hqv', le_trans hlev' hlev⟩
        obtain ⟨hpost, hPD', hEnt'⟩ := ih (upd δ i true st p.1 (d + p.2)) R
          pending (fun p' hp' => htodo p' (List.mem_cons_of_mem _ hp'))
          ⟨hu₁, hC₁, hR₁, hCov₁⟩
        refine ⟨hpost, pdec_comp hPD hPD', ?_⟩
        intro e he
        refine hEnt' e ?_
        rw [upd_entries_eval]
        exact List.mem_cons_of_mem _ he

/-- Invariant carried through one drain pass of bucket `i`: core
invariants, the request-set range, and coverage where the extracted
entries `cur` stand in for their bucket entries until processed. -/
def DrainPre (G : CSR) (s : ℕ) (δ : ℚ) (i : ℕ)
    (cur : List (ℕ × ℕ × ℚ)) (st : BState) (R : List ℕ) : Prop :=
  CoreInv G s δ st ∧ RRange δ i st R ∧
  (∀ x qx, st.dist x = some qx →
    EntryW st x qx ∨ (i, x, qx) ∈ cur ∨
      (x ∈ R ∧ LightRelOn G δ st.dist x qx) ∨ AllRel G st.dist x qx)

lemma foldDrain_inv {G : CSR} {s : ℕ} {δ : ℚ} {i : ℕ}
    (hδ : 0 < δ) (hw : NonnegW G) :
    ∀ (cur : List (ℕ × ℕ × ℚ)) (st : BState) (R : List ℕ),
    (∀ e ∈ cur, 0 ≤ e.2.2 ∧ bkey δ e.2.2 = i) →
    DrainPre G s δ i cur st R →
    DrainPre G s δ i [] (cur.foldl (drainE G δ i) (st, R)).1
        (cur.foldl (drainE G δ i) (st, R)).2 ∧
      (∀ x ∈ R, x ∈ (cur.foldl (drainE G δ i) (st, R)).2) ∧
      PDec st.dist (cur.foldl (drainE G δ i) (st, R)).1.dist ∧
      (∀ e ∈ st.entries, e ∈ (cur.foldl (drainE G δ i) (st, R)).1.entries) := by
  intro cur
  induction cur with
  | nil =>
      intro st R _ hpre
      exact ⟨hpre, fun x hx => hx, pdec_self _, fun e he => he⟩
  | cons e tail ih =>
      intro st R hPend hpre
      obtain ⟨hC, hR, hCov⟩ := hpre
      obtain ⟨hnn, hkey⟩ := hPend e (List.mem_cons_self _ _)
      have hPendTail : ∀ e' ∈ tail, 0 ≤ e'.2.2 ∧ bkey δ e'.2.2 = i :=
        fun e' he' => hPend e' (List.mem_cons_of_mem _ he')
      rw [List.foldl_cons]
      by_cases hfresh : st.dist e.2.1 = some e.2.2
      · have hkcast : ((bkey δ e.2.2 : ℕ) : ℚ) = (i : ℚ) := by
          exact_mod_cast congrArg (fun n : ℕ => (n : ℚ)) hkey
        have hdlo : (i : ℚ) * δ ≤ e.2.2 := by
          have := bkey_mul_le hδ hnn (δ := δ) (q := e.2.2)
          rw [hkcast] at this
          exact this
        have hdhi : e.2.2 < ((i : ℚ) + 1) * δ := by
          have := lt_bkey_succ_mul hδ hnn (δ := δ) (q := e.2.2)
          rw [hkcast] at this
          exact this
        have hpath : PathW G s e.2.1 e.2.2 := hC.1 _ _ hfresh
        have hdrain : drainE G δ i (st, R) e =
            ((lightOut G δ e.2.1).foldl (relaxBk true δ i e.2.2)
              { st with settled := st.settled + 1 }, R ++ [e.2.1]) := by
          unfold drainE
          rw [if_pos hfresh]
        rw [hdrain]
        have hpre₁ : LightPre G s δ i e.2.1 e.2.2 (lightOut G δ e.2.1) tail
            { st with settled := st.settled + 1 } R := by
          refine ⟨hfresh, hC, hR, ?_⟩
          intro x qx hx
          rcases hCov x qx hx with h | h | h | h
          · exact Or.inl h
          · rcases List.mem_cons.mp h with hxe | hxt
            · have hx1 : x = e.2.1 := by rw [← hxe]
              have hx2 : qx = e.2.2 := by rw [← hxe]
              refine Or.inr (Or.inr (Or.inr (Or.inr ⟨hx1, hx2, ?_⟩)))
              intro p hp
              exact Or.inl hp
            · exact Or.inr (Or.inl hxt)
          · exact Or.inr (Or.inr (Or.inl h))
          · exact Or.inr (Or.inr (Or.inr (Or.inl h)))
        obtain ⟨⟨hu₂, hC₂, hR₂, hCov₂⟩, hPD₂, hEnt₂⟩ :=
          foldLight_inv hδ hw hpath hdlo (lightOut G δ e.2.1)
            { st with settled := st.settled + 1 } R tail
            (fun p hp => hp) hpre₁
        have hpre₂ : DrainPre G s δ i tail
            ((lightOut G δ e.2.1).foldl (relaxBk true δ i e.2.2)
              { st with settled := st.settled + 1 }) (R ++ [e.2.1]) := by
          refine ⟨hC₂, ?_, ?_⟩
          · intro x hx
            rcases List.mem_append.mp hx with hx | hx
            · exact hR₂ x hx
            · rw [List.mem_singleton.mp hx]
              exact ⟨e.2.2, hu₂, hdlo, hdhi⟩
          · intro x qx hx
            rcases hCov₂ x qx hx with h | h | ⟨hxR, hLR⟩ | h | ⟨hxu, hqd, hcl⟩
            · exact Or.inl h
            · exact Or.inr (Or.inl h)
            · exact Or.inr (Or.inr (Or.inl
                ⟨List.mem_append.mpr (Or.inl hxR), hLR⟩))
            · exact Or.inr (Or.inr (Or.inr h))
            · subst hxu; subst hqd
              refine Or.inr (Or.inr (Or.inl
                ⟨List.mem_append.mpr (Or.inr (List.mem_singleton.mpr rfl)), ?_⟩))
              intro p hp
              rcases hcl p hp with hp' | hb
              · cases hp'
              · exact hb
        obtain ⟨hpost, hRsub, hPD₃, hEnt₃⟩ := ih _ _ hPendTail hpre₂
        refine ⟨hpost, ?_, pdec_comp hPD₂ hPD₃, ?_⟩
        · intro x hx
          exact hRsub x (List.mem_append.mpr (Or.inl hx))
        · intro e' he'
          exact hEnt₃ e' (hEnt₂ e' he')
      · have hdrain : drainE G δ i (st, R) e = (st, R) := by
          unfold drainE
          rw [if_neg hfresh]
        rw [hdrain]
        refine ih st R hPendTail ⟨hC, hR, ?_⟩
        intro x qx hx
        rcases hCov x qx hx with h | h | h | h
        · exact Or.inl h
        · rcases List.mem_cons.mp h with hxe | hxt
          · exfalso
            apply hfresh
            have hx1 : e.2.1 = x := by rw [← hxe]
            have hx2 : e.2.2 = qx := by rw [← hxe]
            rw [hx1, hx2]
            exact hx
          · exact Or.inr (Or.inl hxt)
        · exact Or.inr (Or.inr (Or.inl h))
        · exact Or.inr (Or.inr (Or.inr h))

lemma lightLoop_inv {G : CSR} {s : ℕ} {δ : ℚ} {i : ℕ}
    (hδ : 0 < δ) (hw : NonnegW G) :
    ∀ (passes : ℕ) (first : Bool) (st : BState) (R : List ℕ),
    CoreInv G s δ st → RRange δ i st R → MCov G δ st R →
    CoreInv G s δ (lightLoop G δ i passes first st R).1 ∧
      RRange δ i (lightLoop G δ i passes first st R).1
        (lightLoop G δ i passes first st R).2 ∧
      MCov G δ (lightLoop G δ i passes first st R).1
        (lightLoop G δ i passes first st R).2 ∧
      (∀ x ∈ R, x ∈ (lightLoop G δ i passes first st R).2) ∧
      PDec st.dist (lightLoop G δ i passes first st R).1.dist := by
  intro passes
  induction passes with
  | zero =>
      intro first st R hC hR hM
      exact ⟨hC, hR, hM, fun x hx => hx, pdec_self _⟩
  | succ p ih =>
      intro first st R hC hR hM
      by_cases hcur : (st.entries.filter (fun e => e.1 == i)).isEmpty
      · simp only [lightLoop, hcur, if_true]
        exact ⟨hC, hR, hM, fun x hx => hx, pdec_self _⟩
      · simp only [lightLoop, hcur, if_false]
        set st₀ : BState := { st with
          entries := st.entries.filter (fun e => !(e.1 == i)),
          lightPassRepeats := st.lightPassRepeats +
            (if first then 0 else 1) } with hst₀
        have hPend : ∀ e ∈ st.entries.filter (fun e => e.1 == i),
            0 ≤ e.2.2 ∧ bkey δ e.2.2 = i := by
          intro e he
          obtain ⟨hmem, hbeq⟩ := List.mem_filter.mp he
          obtain ⟨hnn, hkey⟩ := hC.2.2 e hmem
          have hei : e.1 = i := by simpa using hbeq
          exact ⟨hnn, by rw [← hei, ← hkey]⟩
        have hpre : DrainPre G s δ i
            (st.entries.filter (fun e => e.1 == i)) st₀ R := by
          refine ⟨⟨hC.1, hC.2.1, ?_⟩, hR, ?_⟩
          · intro e he
            exact hC.2.2 e (List.mem_filter.mp he).1
          · intro x qx hx
            rcases hM x qx hx with ⟨k, hk⟩ | h | h
            · by_cases hki : k = i
              · subst hki
                exact Or.inr (Or.inl (List.mem_filter.mpr ⟨hk, by simp⟩))
              · refine Or.inl ⟨k, List.mem_filter.mpr ⟨hk, by simp [hki]⟩⟩
            · exact Or.inr (Or.inr (Or.inl h))
            · exact Or.inr (Or.inr (Or.inr h))
        obtain ⟨hpost, hRsub, hPD, _⟩ :=
          foldDrain_inv hδ hw _ st₀ R hPend hpre
        obtain ⟨hC', hR', hCov'⟩ := hpost
        have hM' : MCov G δ
            ((st.entries.filter (fun e => e.1 == i)).foldl
              (drainE G δ i) (st₀, R)).1
            ((st.entries.filter (fun e => e.1 == i)).foldl
              (drainE G δ i) (st₀, R)).2 := by
          intro x qx hx
          rcases hCov' x qx hx with h | h | h | h
          · exact Or.inl h
          · cases h
          · exact Or.inr (Or.inl h)
          · exact Or.inr (Or.inr h)
        obtain ⟨hC'', hR'', hM'', hRsub', hPD'⟩ := ih false _ _ hC' hR' hM'
        refine ⟨hC'', hR'', hM'', ?_, pdec_comp hPD hPD'⟩
        intro x hx
        exact hRsub' x (hRsub x hx)

lemma foldHeavyEdges_inv {G : CSR} {s : ℕ} {δ : ℚ} {i u : ℕ} {q : ℚ}
    (hδ : 0 < δ) (hw : NonnegW G)
    (hpath : PathW G s u q) (hqlo : (i : ℚ) * δ ≤ q)
    (hqhi : q < ((i : ℚ) + 1) * δ) :
    ∀ (todo : List (ℕ × ℚ)) (st : BState) (S : List ℕ),
    (∀ p ∈ todo, p ∈ heavyOut G δ u) →
    st.dist u = some q →
    CoreInv G s δ st →
    RRange δ i st S →
    (∀ x qx, st.dist x = some qx →
      EntryW st x qx ∨ (x ∈ S ∧ LightRelOn G δ st.dist x qx) ∨
        AllRel G st.dist x qx ∨ (x = u ∧ qx = q)) →
    (∀ p ∈ heavyOut G δ u, p ∈ todo ∨
      ∃ qv, st.dist p.1 = some qv ∧ qv ≤ q + p.2) →
    ((todo.foldl (relaxBk false δ i q) st).dist u = some q ∧
      CoreInv G s δ (todo.foldl (relaxBk false δ i q) st) ∧
      RRange δ i (todo.foldl (relaxBk false δ i q) st) S ∧
      PDec st.dist (todo.foldl (relaxBk false δ i q) st).dist ∧
      (∀ e ∈ st.entries, e ∈ (todo.foldl (relaxBk false δ i q) st).entries) ∧
      (∀ x qx, (todo.foldl (relaxBk false δ i q) st).dist x = some qx →
        EntryW (todo.foldl (relaxBk false δ i q) st) x qx ∨
          (x ∈ S ∧ LightRelOn G δ
            (todo.foldl (relaxBk false δ i q) st).dist x qx) ∨
          AllRel G (todo.foldl (relaxBk false δ i q) st).dist x qx ∨
          (x = u ∧ qx = q)) ∧
      (∀ p ∈ heavyOut G δ u,
        ∃ qv, (todo.foldl (relaxBk false δ i q) st).dist p.1 = some qv ∧
          qv ≤ q + p.2)) := by
  intro todo
  induction todo with
  | nil =>
      intro st S _ hu hC hR hCov hprog
      refine ⟨hu, hC, hR, pdec_self _, fun e he => he, hCov, ?_⟩
      intro p hp
      rcases hprog p hp with h | h
      · cases h
      · exact h
  | cons p rest ih =>
      intro st S htodo hu hC hR hCov hprog
      have hmem : p ∈ heavyOut G δ u := htodo p (List.mem_cons_self _ _)
      have hout : p ∈ outEdges G u := mem_outEdges_of_mem_heavyOut hmem
      have hwgt : δ < p.2 := weight_lt_of_mem_heavyOut hmem
      have hnd_gt : ((i : ℚ) + 1) * δ < q + p.2 := by
        have : ((i : ℚ) + 1) * δ = (i : ℚ) * δ + δ := by ring
        linarith
      rw [List.foldl_cons]
      rcases relaxBk_cases false δ i q st p with
        ⟨heq, qv, hqv, hle⟩ | ⟨heq, himp⟩
      · rw [heq]
        refine ih st S (fun p' hp' => htodo p' (List.mem_cons_of_mem _ hp'))
          hu hC hR hCov ?_
        intro p' hp'
        rcases hprog p' hp' with hp'' | hb
        · rcases List.mem_cons.mp hp'' with hpp | hpr
          · subst hpp
            exact Or.inr ⟨qv, hqv, hle⟩
          · exact Or.inl hpr
        · exact Or.inr hb
      · rw [heq]
        have hlo' : (i : ℚ) * δ ≤ q + p.2 := by linarith
        have hpath' : PathW G s p.1 (q + p.2) := hpath.step' hout
        have hC₁ : CoreInv G s δ (upd δ i false st p.1 (q + p.2)) :=
          upd_core hδ hC hpath' hlo' himp
        have hPD : PDec st.dist (upd δ i false st p.1 (q + p.2)).dist :=
          upd_pdec himp
        have hne : u ≠ p.1 := by
          intro h
          rw [h] at hu
          have := himp q hu
          linarith
        have hu₁ : (upd δ i false st p.1 (q + p.2)).dist u = some q := by
          rw [upd_dist_eval, if_neg hne]
          exact hu
        have hR₁ : RRange δ i (upd δ i false st p.1 (q + p.2)) S := by
          intro x hx
          obtain ⟨qx, hqx, hqlo', hqhi'⟩ := hR x hx
          by_cases hxp : x = p.1
          · subst hxp
            have := himp qx hqx
            linarith
          · exact ⟨qx, by rw [upd_dist_eval, if_neg hxp]; exact hqx,
              hqlo', hqhi'⟩
        have hCov₁ : ∀ x qx,
            (upd δ i false st p.1 (q + p.2)).dist x = some qx →
            EntryW (upd δ i false st p.1 (q + p.2)) x qx ∨
              (x ∈ S ∧ LightRelOn G δ
                (upd δ i false st p.1 (q + p.2)).dist x qx) ∨
              AllRel G (upd δ i false st p.1 (q + p.2)).dist x qx ∨
              (x = u ∧ qx = q) := by
          intro x qx hx
          rcases upd_dist_cases hx with ⟨hxp, hq⟩ | ⟨hxp, hold⟩
          · subst hxp; subst hq
            refine Or.inl ⟨max (bkey δ (q + p.2)) i, ?_⟩
            rw [upd_entries_eval]
            exact List.mem_cons_self _ _
          · rcases hCov x qx hold with h | ⟨hxS, hLR⟩ | h | h
            · obtain ⟨k, hk⟩ := h
              refine Or.inl ⟨k, ?_⟩
              rw [upd_entries_eval]
              exact List.mem_cons_of_mem _ hk
            · exact Or.inr (Or.inl ⟨hxS, hLR.mono hPD⟩)
            · exact Or.inr (Or.inr (Or.inl (h.mono hPD)))
            · exact Or.inr (Or.inr (Or.inr h))
        have hprog₁ : ∀ p' ∈ heavyOut G δ u, p' ∈ rest ∨
            ∃ qv, (upd δ i false st p.1 (q + p.2)).dist p'.1 = some qv ∧
              qv ≤ q + p'.2 := by
          intro p' hp'
          rcases hprog p' hp' with hp'' | hb
          · rcases List.mem_cons.mp hp'' with hpp | hpr
            · subst hpp
              refine Or.inr ⟨q + p'.2, ?_, le_refl _⟩
              rw [upd_dist_eval, if_pos rfl]
            · exact Or.inl hpr
          · obtain ⟨qv, hqv, hlev⟩ := hb
            obtain ⟨qv', hqv', hlev'⟩ := hPD _ _ hqv
            exact Or.inr ⟨qv', hqv', le_trans hlev' hlev⟩
        obtain ⟨hu₂, hC₂, hR₂, hPD₂, hEnt₂, hCov₂, hprog₂⟩ := ih
          (upd δ i false st p.1 (q + p.2)) S
          (fun p' hp' => htodo p' (List.mem_cons_of_mem _ hp'))
          hu₁ hC₁ hR₁ hCov₁ hprog₁
        refine ⟨hu₂, hC₂, hR₂, pdec_comp hPD hPD₂, ?_, hCov₂, hprog₂⟩
        intro e he
        refine hEnt₂ e ?_
        rw [upd_entries_eval]
        exact List.mem_cons_of_mem _ he

lemma foldHeavyR_inv {G : CSR} {s : ℕ} {δ : ℚ} {i : ℕ}
    (hδ : 0 < δ) (hw : NonnegW G) :
    ∀ (todo : List ℕ) (st : BState),
    CoreInv G s δ st →
    RRange δ i st todo →
    MCov G δ st todo →
    CoreInv G s δ (todo.foldl (heavyE G δ i) st) ∧
      BCov G (todo.foldl (heavyE G δ i) st) := by
  intro todo
  induction todo with
  | nil =>
      intro st hC hR hM
      refine ⟨hC, ?_⟩
      intro x qx hx
      rcases hM x qx hx with h | ⟨hxm, _⟩ | h
      · exact Or.inl h
      · cases hxm
      · exact Or.inr h
  | cons u rest ih =>
      intro st hC hR hM
      rw [List.foldl_cons]
      cases hu : st.dist u with
      | none =>
          have hstep : heavyE G δ i st u = st := by
            unfold heavyE
            rw [hu]
          rw [hstep]
          refine ih st hC (fun x hx => hR x (List.mem_cons_of_mem _ hx)) ?_
          intro x qx hx
          rcases hM x qx hx with h | ⟨hxm, hLR⟩ | h
          · exact Or.inl h
          · rcases List.mem_cons.mp hxm with hxu | hxr
            · subst hxu
              rw [hu] at hx
              cases hx
            · exact Or.inr (Or.inl ⟨hxr, hLR⟩)
          · exact Or.inr (Or.inr h)
      | some q =>
          obtain ⟨q', hq', hqlo, hqhi⟩ := hR u (List.mem_cons_self _ _)
          rw [hu] at hq'
          cases hq'
          have hpath : PathW G s u q := hC.1 _ _ hu
          have hstep : heavyE G δ i st u =
              (heavyOut G δ u).foldl (relaxBk false δ i q) st := by
            unfold heavyE
            rw [hu]
          rw [hstep]
          have hucase := hM u q hu
          have hCov' : ∀ x qx, st.dist x = some qx →
              EntryW st x qx ∨ (x ∈ rest ∧ LightRelOn G δ st.dist x qx) ∨
                AllRel G st.dist x qx ∨ (x = u ∧ qx = q) := by
            intro x qx hx
            rcases hM x qx hx with h | ⟨hxm, hLR⟩ | h
            · exact Or.inl h
            · rcases List.mem_cons.mp hxm with hxu | hxr
              · subst hxu
                rw [hu] at hx
                cases hx
                exact Or.inr (Or.inr (Or.inr ⟨rfl, rfl⟩))
              · exact Or.inr (Or.inl ⟨hxr, hLR⟩)
            · exact Or.inr (Or.inr (Or.inl h))
          obtain ⟨hu₂, hC₂, hR₂, hPD₂, hEnt₂, hCov₂, hprog₂⟩ :=
            foldHeavyEdges_inv hδ hw hpath hqlo hqhi (heavyOut G δ u) st rest
              (fun p hp => hp) hu hC
              (fun x hx => hR x (List.mem_cons_of_mem _ hx)) hCov'
              (fun p hp => Or.inl hp)
          have hAllu : EntryW ((heavyOut G δ u).foldl (relaxBk false δ i q) st) u q ∨
              AllRel G ((heavyOut G δ u).foldl (relaxBk false δ i q) st).dist u q := by
            rcases hucase with h | ⟨_, hLR⟩ | h
            · obtain ⟨k, hk⟩ := h
              exact Or.inl ⟨k, hEnt₂ _ hk⟩
            · exact Or.inr (AllRel.of_parts (hLR.mono hPD₂) hprog₂)
            · exact Or.inr (h.mono hPD₂)
          refine ih _ hC₂ hR₂ ?_
          intro x qx hx
          rcases hCov₂ x qx hx with h | h | h | ⟨hxu, hqx⟩
          · exact Or.inl h
          · exact Or.inr (Or.inl h)
          · exact Or.inr (Or.inr h)
          · subst hxu; subst hqx
            rcases hAllu with h | h
            · exact Or.inl h
            · exact Or.inr (Or.inr h)

lemma stepOuter_BInv {G : CSR} {s : ℕ} {δ : ℚ}
    (hδ : 0 < δ) (hw : NonnegW G) (pl : ℕ) (st : BState)
    (hB : BInv G s δ st) : BInv G s δ (stepOuter G δ pl st) := by
  obtain ⟨hC, hCov⟩ := hB
  cases hmk : minKey st.entries with
  | none =>
      unfold stepOuter
      rw [hmk]
      exact ⟨hC, hCov⟩
  | some i =>
      unfold stepOuter
      rw [hmk]
      have hC₁ : CoreInv G s δ (bumpCursor st i) := hC
      have hM₁ : MCov G δ (bumpCursor st i) ([] : List ℕ) := by
        intro x qx hx
        rcases hCov x qx hx with h | h
        · exact Or.inl h
        · exact Or.inr (Or.inr h)
      have hR₁ : RRange δ i (bumpCursor st i) ([] : List ℕ) := by
        intro x hx
        cases hx
      obtain ⟨hC₂, hR₂, hM₂, _, _⟩ := lightLoop_inv hδ hw pl true _ _ hC₁ hR₁ hM₁
      exact (foldHeavyR_inv hδ hw _ _ hC₂ hR₂ hM₂).imp id id

lemma initB_dist_eval (s v : ℕ) :
    (initB s).dist v = if v = s then some 0 else none := rfl

lemma initB_BInv {G : CSR} {s : ℕ} {δ : ℚ} : BInv G s δ (initB s) := by
  refine ⟨⟨?_, ?_, ?_⟩, ?_⟩
  · intro v q hv
    rw [initB_dist_eval] at hv
    by_cases hvs : v = s
    · rw [if_pos hvs] at hv
      cases hv
      subst hvs
      exact PathW.refl
    · rw [if_neg hvs] at hv
      cases hv
  · rw [initB_dist_eval, if_pos rfl]
  · intro e he
    rcases List.mem_singleton.mp he with rfl
    refine ⟨le_refl 0, ?_⟩
    simp [bkey]
  · intro x qx hx
    rw [initB_dist_eval] at hx
    by_cases hxs : x = s
    · rw [if_pos hxs] at hx
      cases hx
      exact Or.inl ⟨0, by rw [hxs]; exact List.mem_singleton.mpr rfl⟩
    · rw [if_neg hxs] at hx
      cases hx

lemma runBk_inv {G : CSR} {s : ℕ} {δ : ℚ}
    (hδ : 0 < δ) (hw : NonnegW G) (pl : ℕ) :
    ∀ (fuel : ℕ) (st st' : BState), BInv G s δ st →
    runBk G δ pl fuel st = some st' →
    BInv G s δ st' ∧ st'.entries = [] := by
  intro fuel
  induction fuel with
  | zero =>
      intro st st' hB hrun
      unfold runBk at hrun
      by_cases he : st.entries.isEmpty
      · rw [if_pos he] at hrun
        cases hrun
        exact ⟨hB, List.isEmpty_iff.mp he⟩
      · rw [if_neg he] at hrun
        cases hrun
  | succ f ih =>
      intro st st' hB hrun
      unfold runBk at hrun
      by_cases he : st.entries.isEmpty
      · rw [if_pos he] at hrun
        cases hrun
        exact ⟨hB, List.isEmpty_iff.mp he⟩
      · rw [if_neg he] at hrun
        exact ih _ _ (stepOuter_BInv hδ hw pl st hB) hrun

/-- The bucket solver, whenever it terminates, produces a sound and
saturated distance labeling — for any pass limit (delta-stepping drains
buckets fully; the k-hop relaxer cuts light passes at `k` and re-visits
the residual bucket) and any positive δ. -/
theorem runBk_sound_sat {G : CSR} {s : ℕ} {δ : ℚ}
    (hδ : 0 < δ) (hw : NonnegW G) (pl fuel : ℕ) (st' : BState)
    (hrun : runBk G δ pl fuel (initB s) = some st') :
    Sound G s st'.dist ∧ Sat G s st'.dist := by
  obtain ⟨⟨⟨hS, hs0, _⟩, hCov⟩, hemp⟩ :=
    runBk_inv hδ hw pl fuel (initB s) st' initB_BInv hrun
  refine ⟨hS, hs0, ?_⟩
  intro u qu hu p hp
  rcases hCov u qu hu with ⟨k, hk⟩ | hAll
  · rw [hemp] at hk
    cases hk
  · exact hAll p hp

/-!
Invariants of the baseline solver: soundness, queue entries dominating the
current labels, and coverage — every labeled vertex either still has a
queue entry carrying its current label, or all its out-edges are relaxed.
-/

/-- The baseline solver invariant. -/
def DInv (G : CSR) (s : ℕ) (st : DState) : Prop :=
  Sound G s st.dist ∧ st.dist s = some 0 ∧
    (∀ e ∈ st.heap, ∃ q, st.dist e.2 = some q ∧ q ≤ e.1) ∧
    (∀ u qu, st.dist u = some qu →
      (qu, u) ∈ st.heap ∨ AllRel G st.dist u qu)

lemma relaxD_cases (d : ℚ) (st : DState) (p : ℕ × ℚ) :
    (relaxD d st p = st ∧
        ∃ qv, st.dist p.1 = some qv ∧ qv ≤ d + p.2) ∨
      (relaxD d st p = { st with
          dist := fun x => if x = p.1 then some (d + p.2) else st.dist x
          heap := (d + p.2, p.1) :: st.heap
          relaxations := st.relaxations + 1 } ∧
        ∀ qv, st.dist p.1 = some qv → d + p.2 < qv) := by
  unfold relaxD
  cases h : st.dist p.1 with
  | none =>
      right
      exact ⟨rfl, fun qv hqv => by cases hqv⟩
  | some qv =>
      by_cases hlt : d + p.2 < qv
      · right
        refine ⟨by simp [hlt], ?_⟩
        intro qv' hqv'
        cases hqv'
        exact hlt
      · left
        exact ⟨by simp [hlt], ⟨qv, rfl, not_lt.mp hlt⟩⟩

/-- Invariant carried through the out-edge fold of one expanded vertex
`u` at key `d` in the baseline solver. -/
def DExp (G : CSR) (s u : ℕ) (d : ℚ) (todo : List (ℕ × ℚ))
    (st : DState) : Prop :=
  st.dist u = some d ∧ Sound G s st.dist ∧ st.dist s = some 0 ∧
    (∀ e ∈ st.heap, ∃ q, st.dist e.2 = some q ∧ q ≤ e.1) ∧
    (∀ x qx, st.dist x = some qx →
      (qx, x) ∈ st.heap ∨ AllRel G st.dist x qx ∨
        (x = u ∧ qx = d ∧ ∀ p ∈ outEdges G u, p ∈ todo ∨
          ∃ qv, st.dist p.1 = some qv ∧ qv ≤ d + p.2))

lemma foldRelaxD_inv {G : CSR} {s u : ℕ} {d : ℚ}
    (hw : NonnegW G) (hpath : PathW G s u d) :
    ∀ (todo : List (ℕ × ℚ)) (st : DState),
    (∀ p ∈ todo, p ∈ outEdges G u) →
    DExp G s u d todo st →
    DExp G s u d [] (todo.foldl (relaxD d) st) ∧
      PDec st.dist (todo.foldl (relaxD d) st).dist := by
  have hd0 : (0 : ℚ) ≤ d := hpath.nonneg hw
  intro todo
  induction todo with
  | nil =>
      intro st _ hpre
      exact ⟨hpre, pdec_self _⟩
  | cons p rest ih =>
      intro st htodo hpre
      obtain ⟨hu, hS, hs0, hH, hCov⟩ := hpre
      have hout : p ∈ outEdges G u := htodo p (List.mem_cons_self _ _)
      have hwnn : (0 : ℚ) ≤ p.2 := hw _ (mem_weights_snd hout)
      rw [List.foldl_cons]
      rcases relaxD_cases d st p with ⟨heq, qv, hqv, hle⟩ | ⟨heq, himp⟩
      · rw [heq]
        refine ih st (fun p' hp' => htodo p' (List.mem_cons_of_mem _ hp')) ?_
        refine ⟨hu, hS, hs0, hH, ?_⟩
        intro x qx hx
        rcases hCov x qx hx with h | h | ⟨hxu, hqd, hcl⟩
        · exact Or.inl h
        · exact Or.inr (Or.inl h)
        · refine Or.inr (Or.inr ⟨hxu, hqd, ?_⟩)
          intro p' hp'
          rcases hcl p' hp' with hp'' | hb
          · rcases List.mem_cons.mp hp'' with hpp | hpr
            · subst hpp
              exact Or.inr ⟨qv, hqv, hle⟩
            · exact Or.inl hpr
          · exact Or.inr hb
      · rw [heq]
        set stw : DState := { st with
          dist := fun x => if x = p.1 then some (d + p.2) else st.dist x
          heap := (d + p.2, p.1) :: st.heap
          relaxations := st.relaxations + 1 } with hstw
        have hPD : PDec st.dist stw.dist :=
          PDec.update (fun qv hqv => le_of_lt (himp qv hqv))
        have hdcases : ∀ x qx, stw.dist x = some qx →
            (x = p.1 ∧ qx = d + p.2) ∨ (x ≠ p.1 ∧ st.dist x = some qx) := by
          intro x qx hx
          by_cases hxp : x = p.1
          · refine Or.inl ⟨hxp, ?_⟩
            have : stw.dist x = some (d + p.2) := by
              show (if x = p.1 then some (d + p.2) else st.dist x) = _
              rw [if_pos hxp]
            rw [this] at hx
            cases hx
            rfl
          · refine Or.inr ⟨hxp, ?_⟩
            have : stw.dist x = st.dist x := by
              show (if x = p.1 then some (d + p.2) else st.dist x) = _
              rw [if_neg hxp]
            rw [← this]
            exact hx
        have hne : u ≠ p.1 := by
          intro h
          rw [h] at hu
          have := himp d hu
          linarith
        have hu₁ : stw.dist u = some d := by
          show (if u = p.1 then some (d + p.2) else st.dist u) = some d
          rw [if_neg hne]
          exact hu
        have hS₁ : Sound G s stw.dist := by
          intro x qx hx
          rcases hdcases x qx hx with ⟨hxp, hq⟩ | ⟨_, hq⟩
          · subst hxp; subst hq
            exact hpath.step' hout
          · exact hS _ _ hq
        have hs0₁ : stw.dist s = some 0 := by
          show (if s = p.1 then some (d + p.2) else st.dist s) = some 0
          by_cases hsp : s = p.1
          · exfalso
            rw [← hsp] at himp
            have := himp 0 hs0
            linarith
          · rw [if_neg hsp]
            exact hs0
        have hH₁ : ∀ e ∈ stw.heap, ∃ q, stw.dist e.2 = some q ∧ q ≤ e.1 := by
          intro e he
          rcases List.mem_cons.mp he with he | he
          · subst he
            refine ⟨d + p.2, ?_, le_refl _⟩
            show (if p.1 = p.1 then some (d + p.2) else st.dist p.1) = _
            rw [if_pos rfl]
          · obtain ⟨q, hq, hqle⟩ := hH e he
            obtain ⟨q', hq', hqle'⟩ := hPD _ _ hq
            exact ⟨q', hq', le_trans hqle' hqle⟩
        have hCov₁ : ∀ x qx, stw.dist x = some qx →
            (qx, x) ∈ stw.heap ∨ AllRel G stw.dist x qx ∨
              (x = u ∧ qx = d ∧ ∀ p' ∈ outEdges G u, p' ∈ rest ∨
                ∃ qv, stw.dist p'.1 = some qv ∧ qv ≤ d + p'.2) := by
          intro x qx hx
          rcases hdcases x qx hx with ⟨hxp, hq⟩ | ⟨hxp, hold⟩
          · subst hxp; subst hq
            exact Or.inl (List.mem_cons_self _ _)
          · rcases hCov x qx hold with h | h | ⟨hxu, hqd, hcl⟩
            · exact Or.inl (List.mem_cons_of_mem _ h)
            · exact Or.inr (Or.inl (h.mono hPD))
            · refine Or.inr (Or.inr ⟨hxu, hqd, ?_⟩)
              intro p' hp'
              rcases hcl p' hp' with hp'' | hb
              · rcases List.mem_cons.mp hp'' with hpp | hpr
                · subst hpp
                  refine Or.inr ⟨d + p'.2, ?_, le_refl _⟩
                  show (if p'.1 = p'.1 then some (d + p'.2) else _) = _
                  rw [if_pos rfl]
                · exact Or.inl hpr
              · obtain ⟨qv, hqv, hlev⟩ := hb
                obtain ⟨qv', hqv', hlev'⟩ := hPD _ _ hqv
                exact Or.inr ⟨qv', hqv', le_trans hlev' hlev⟩
        obtain ⟨hpost, hPD'⟩ := ih stw
          (fun p' hp' => htodo p' (List.mem_cons_of_mem _ hp'))
          ⟨hu₁, hS₁, hs0₁, hH₁, hCov₁⟩
        exact ⟨hpost, pdec_comp hPD hPD'⟩

lemma stepD_eq_of_none {G : CSR} {st : DState}
    (h : popMin st.heap = none) : stepD G st = st := by
  unfold stepD
  rw [h]

lemma stepD_eq_of_dist_none {G : CSR} {st : DState} {e : ℚ × ℕ}
    {rest : List (ℚ × ℕ)} (hpop : popMin st.heap = some (e, rest))
    (hdu : st.dist e.2 = none) :
    stepD G st = { st with heap := rest } := by
  unfold stepD
  rw [hpop]
  simp only
  rw [show ({ st with heap := rest } : DState).dist e.2 = none from hdu]

lemma stepD_eq_of_stale {G : CSR} {st : DState} {e : ℚ × ℕ}
    {rest : List (ℚ × ℕ)} {q : ℚ} (hpop : popMin st.heap = some (e, rest))
    (hdu : st.dist e.2 = some q) (hlt : q < e.1) :
    stepD G st = { st with heap := rest } := by
  unfold stepD
  rw [hpop]
  simp only
  rw [show ({ st with heap := rest } : DState).dist e.2 = some q from hdu]
  simp only [hlt, if_true]

lemma stepD_eq_of_expand {G : CSR} {st : DState} {e : ℚ × ℕ}
    {rest : List (ℚ × ℕ)} {q : ℚ} (hpop : popMin st.heap = some (e, rest))
    (hdu : st.dist e.2 = some q) (hlt : ¬ q < e.1) :
    stepD G st = (outEdges G e.2).foldl (relaxD e.1)
      { st with heap := rest, settled := st.settled + 1 } := by
  unfold stepD
  rw [hpop]
  simp only
  rw [show ({ st with heap := rest } : DState).dist e.2 = some q from hdu]
  simp only [hlt, if_false]

lemma stepD_DInv {G : CSR} {s : ℕ} (hw : NonnegW G) (st : DState)
    (hD : DInv G s st) : DInv G s (stepD G st) := by
  obtain ⟨hS, hs0, hH, hCov⟩ := hD
  cases hpop : popMin st.heap with
  | none =>
      rw [stepD_eq_of_none hpop]
      exact ⟨hS, hs0, hH, hCov⟩
  | some pr =>
      obtain ⟨e, rest⟩ := pr
      have hperm := popMin_perm hpop
      have hmem_rest : ∀ x, x ∈ rest → x ∈ st.heap := by
        intro x hx
        exact hperm.mem_iff.mpr (List.mem_cons_of_mem _ hx)
      have hmem_e : e ∈ st.heap := hperm.mem_iff.mpr (List.mem_cons_self _ _)
      cases hdu : st.dist e.2 with
      | none =>
          rw [stepD_eq_of_dist_none hpop hdu]
          refine ⟨hS, hs0, ?_, ?_⟩
          · intro e' he'
            exact hH e' (hmem_rest e' he')
          · intro x qx hx
            rcases hCov x qx hx with h | h
            · have := hperm.mem_iff.mp h
              rcases List.mem_cons.mp this with hxe | hxr
              · exfalso
                have hx2 : e.2 = x := by rw [← hxe]
                rw [hx2, hx] at hdu
                cases hdu
              · exact Or.inl hxr
            · exact Or.inr h
      | some q =>
          by_cases hstale : q < e.1
          · rw [stepD_eq_of_stale hpop hdu hstale]
            refine ⟨hS, hs0, ?_, ?_⟩
            · intro e' he'
              exact hH e' (hmem_rest e' he')
            · intro x qx hx
              rcases hCov x qx hx with h | h
              · have := hperm.mem_iff.mp h
                rcases List.mem_cons.mp this with hxe | hxr
                · exfalso
                  have hx1 : e.1 = qx := by rw [← hxe]
                  have hx2 : e.2 = x := by rw [← hxe]
                  rw [hx2, hx] at hdu
                  cases hdu
                  rw [← hx1] at hstale
                  exact lt_irrefl _ hstale
                · exact Or.inl hxr
              · exact Or.inr h
          · rw [stepD_eq_of_expand hpop hdu hstale]
            obtain ⟨q', hq', hqle⟩ := hH e hmem_e
            rw [hdu] at hq'
            cases hq'
            have heq : e.1 = q := le_antisymm (not_lt.mp hstale) hqle
            have hdu' : st.dist e.2 = some e.1 := by rw [heq]; exact hdu
            have hpath : PathW G s e.2 e.1 := hS _ _ hdu'
            have hpre : DExp G s e.2 e.1 (outEdges G e.2)
                { st with heap := rest, settled := st.settled + 1 } := by
              refine ⟨hdu', hS, hs0, ?_, ?_⟩
              · intro e' he'
                exact hH e' (hmem_rest e' he')
              · intro x qx hx
                rcases hCov x qx hx with h | h
                · have := hperm.mem_iff.mp h
                  rcases List.mem_cons.mp this with hxe | hxr
                  · have hx1 : e.1 = qx := by rw [← hxe]
                    have hx2 : e.2 = x := by rw [← hxe]
                    refine Or.inr (Or.inr ⟨hx2.symm, hx1.symm, ?_⟩)
                    intro p hp
                    exact Or.inl hp
                  · exact Or.inl hxr
                · exact Or.inr (Or.inl h)
            obtain ⟨⟨hu', hS', hs0', hH', hCov'⟩, _⟩ :=
              foldRelaxD_inv hw hpath (outEdges G e.2) _ (fun p hp => hp) hpre
            refine ⟨hS', hs0', hH', ?_⟩
            intro x qx hx
            rcases hCov' x qx hx with h | h | ⟨hxu, hqd, hcl⟩
            · exact Or.inl h
            · exact Or.inr h
            · subst hxu; subst hqd
              refine Or.inr ?_
              intro p hp
              rcases hcl p hp with hp' | hb
              · cases hp'
              · exact hb

lemma initD_dist_eval (s v : ℕ) :
    (initD s).dist v = if v = s then some 0 else none := rfl

lemma initD_DInv {G : CSR} {s : ℕ} : DInv G s (initD s) := by
  refine ⟨?_, ?_, ?_, ?_⟩
  · intro v q hv
    rw [initD_dist_eval] at hv
    by_cases hvs : v = s
    · rw [if_pos hvs] at hv
      cases hv
      subst hvs
      exact PathW.refl
    · rw [if_neg hvs] at hv
      cases hv
  · rw [initD_dist_eval, if_pos rfl]
  · intro e he
    rcases List.mem_singleton.mp he with rfl
    refine ⟨0, ?_, le_refl 0⟩
    rw [initD_dist_eval, if_pos rfl]
  · intro x qx hx
    rw [initD_dist_eval] at hx
    by_cases hxs : x = s
    · rw [if_pos hxs] at hx
      cases hx
      subst hxs
      exact Or.inl (List.mem_singleton.mpr rfl)
    · rw [if_neg hxs] at hx
      cases hx

lemma runD_inv {G : CSR} {s : ℕ} (hw : NonnegW G) :
    ∀ (fuel : ℕ) (st st' : DState), DInv G s st →
    runD G fuel st = some st' →
    DInv G s st' ∧ st'.heap = [] := by
  intro fuel
  induction fuel with
  | zero =>
      intro st st' hD hrun
      unfold runD at hrun
      by_cases he : st.heap.isEmpty
      · rw [if_pos he] at hrun
        cases hrun
        exact ⟨hD, List.isEmpty_iff.mp he⟩
      · rw [if_neg he] at hrun
        cases hrun
  | succ f ih =>
      intro st st' hD hrun
      unfold runD at hrun
      by_cases he : st.heap.isEmpty
      · rw [if_pos he] at hrun
        cases hrun
        exact ⟨hD, List.isEmpty_iff.mp he⟩
      · rw [if_neg he] at hrun
        exact ih _ _ (stepD_DInv hw st hD) hrun

/-- The baseline solver, whenever it terminates, produces a sound and
saturated distance labeling. -/
theorem runD_sound_sat {G : CSR} {s : ℕ}
    (hw : NonnegW G) (fuel : ℕ) (st' : DState)
    (hrun : runD G fuel (initD s) = some st') :
    Sound G s st'.dist ∧ Sat G s st'.dist := by
  obtain ⟨⟨hS, hs0, _, hCov⟩, hemp⟩ :=
    runD_inv hw fuel (initD s) st' initD_DInv hrun
  refine ⟨hS, hs0, ?_⟩
  intro u qu hu p hp
  rcases hCov u qu hu with h | hAll
  · rw [hemp] at h
    cases h
  · exact hAll p hp

lemma foldl_min_pos : ∀ (ws : List ℚ) (w : ℚ), 0 < w →
    (∀ x ∈ ws, 0 < x) → 0 < ws.foldl min w := by
  intro ws
  induction ws with
  | nil => intro w hw _; exact hw
  | cons x t ih =>
      intro w hw hx
      rw [List.foldl_cons]
      exact ih (min w x) (lt_min hw (hx x (List.mem_cons_self _ _)))
        (fun y hy => hx y (List.mem_cons_of_mem _ hy))

lemma deltaDefault_pos (G : CSR) : 0 < deltaDefault G := by
  unfold deltaDefault
  have hpos : ∀ x ∈ G.weights.filter (fun w => decide (0 < w)), 0 < x := by
    intro x hx
    exact of_decide_eq_true (List.mem_filter.mp hx).2
  cases hfil : G.weights.filter (fun w => decide (0 < w)) with
  | nil =>
      show 0 < max ((if G.m = 0 then (0 : ℚ) else
        G.weights.sum / (G.m : ℚ)) / 2) 1
      exact lt_of_lt_of_le one_pos (le_max_right _ _)
  | cons w ws =>
      show 0 < max ((if G.m = 0 then (0 : ℚ) else
        G.weights.sum / (G.m : ℚ)) / 2) (ws.foldl min w)
      have hw0 : 0 < w := hpos w (by rw [hfil]; exact List.mem_cons_self _ _)
      have hws : ∀ x ∈ ws, 0 < x :=
        fun x hx => hpos x (by rw [hfil]; exact List.mem_cons_of_mem _ hx)
      exact lt_of_lt_of_le (foldl_min_pos ws w hw0 hws) (le_max_right _ _)

lemma foldl_pick_mem :
    ∀ (ps : List (ℚ × ℚ)) (p : ℚ × ℚ),
    ps.foldl (fun best q => if q.2 < best.2 then q else best) p ∈ p :: ps := by
  intro ps
  induction ps with
  | nil => intro p; exact List.mem_cons_self _ _
  | cons x t ih =>
      intro p
      rw [List.foldl_cons]
      have := ih (if x.2 < p.2 then x else p)
      rcases List.mem_cons.mp this with h | h
      · rw [h]
        by_cases hx : x.2 < p.2
        · rw [if_pos hx]
          exact List.mem_cons_of_mem _ (List.mem_cons_self _ _)
        · rw [if_neg hx]
          exact List.mem_cons_self _ _
      · exact List.mem_cons_of_mem _ (List.mem_cons_of_mem _ h)

lemma chooseMult_mem_or_one (mults times : List ℚ) :
    chooseMult mults times ∈ mults ∨ chooseMult mults times = 1 := by
  unfold chooseMult
  cases h : mults.zip times with
  | nil => exact Or.inr rfl
  | cons p ps =>
      left
      have hmem := foldl_pick_mem ps p
      have hsub : (ps.foldl (fun best q => if q.2 < best.2 then q else best) p)
          ∈ mults.zip times := by
        rw [h]
        exact hmem
      exact (List.of_mem_zip hsub).1

lemma chooseMult_pos {mults times : List ℚ}
    (hm : ∀ mu ∈ mults, 0 < mu) : 0 < chooseMult mults times := by
  rcases chooseMult_mem_or_one mults times with h | h
  · exact hm _ h
  · rw [h]; exact one_pos

lemma distsOf_eq {G : CSR} {d₁ d₂ : ℕ → Option ℚ}
    (h : ∀ v, d₁ v = d₂ v) : distsOf G d₁ = distsOf G d₂ := by
  unfold distsOf
  exact List.map_congr_left (fun v _ => h v)

/-- Machine epsilon of IEEE 754 binary32 (unit roundoff `2⁻²⁴`), as an
exact rational: the claimed distance tolerance is `m` times this value. -/
def machEps : ℚ := 1 / 2 ^ 24

/-- C1: For every CSR graph and every source vertex, the delta-stepping
solver (`run_stoc`) returns the same final distances as the baseline
solver (`run_baseline`) up to floating-point reassociation: for every
vertex `v`, `|dist_stoc[v] - dist_baseline[v]| ≤ m · u` (with `u` the
binary32 machine epsilon), and `dist_stoc[v]` is `+∞` (`none`) exactly
when `dist_baseline[v]` is.  In the exact-rational model the two
labelings are both sound and saturated, hence identical, so the bound
holds with slack. -/
theorem C1_stoc_matches_baseline (G : CSR) (s f₁ f₂ : ℕ)
    (l₁ l₂ : List (Option ℚ)) (hw : NonnegW G)
    (h₁ : runStoc G s f₁ = some l₁) (h₂ : runBaseline G s f₂ = some l₂) :
    ∀ v : ℕ, (l₁.getD v none = none ↔ l₂.getD v none = none) ∧
      ∀ q₁ q₂, l₁.getD v none = some q₁ → l₂.getD v none = some q₂ →
        |q₁ - q₂| ≤ (G.m : ℚ) * machEps := by
  obtain ⟨st₁, hrun₁, hl₁⟩ := Option.map_eq_some'.mp h₁
  obtain ⟨st₂, hrun₂, hl₂⟩ := Option.map_eq_some'.mp h₂
  obtain ⟨hS₁, hT₁⟩ := runBk_sound_sat (deltaDefault_pos G) hw f₁ f₁ st₁ hrun₁
  obtain ⟨hS₂, hT₂⟩ := runD_sound_sat hw f₂ st₂ hrun₂
  have heq : ∀ v, st₁.dist v = st₂.dist v := dist_unique hS₁ hT₁ hS₂ hT₂
  have hll : l₁ = l₂ := by
    rw [← hl₁, ← hl₂]
    exact distsOf_eq heq
  subst hll
  intro v
  refine ⟨Iff.rfl, ?_⟩
  intro q₁ q₂ hq₁ hq₂
  rw [hq₁] at hq₂
  cases hq₂
  rw [sub_self, abs_zero]
  have h24 : (0 : ℚ) ≤ machEps := by norm_num [machEps]
  exact mul_nonneg (Nat.cast_nonneg _) h24

/-- Diamond graph of spec scenario S3: 4 vertices, edges
(0→1,1), (0→2,4), (1→2,2), (2→3,1). -/
def G3diamond : CSR := ⟨[0, 2, 3, 4, 4], [1, 2, 2, 3], [1, 4, 2, 1]⟩

/-- Expected distances of the diamond graph from source 0. -/
def distsDiamond : List (Option ℚ) := [some 0, some 1, some 3, some 4]

theorem C1_stoc_matches_baseline_witness :
    runStoc G3diamond 0 30 = some distsDiamond ∧
    runBaseline G3diamond 0 30 = some distsDiamond ∧
    |(3 : ℚ) - 3| ≤ (G3diamond.m : ℚ) * machEps :=
  ⟨by decide, by decide,
    (C1_stoc_matches_baseline G3diamond 0 30 30 distsDiamond distsDiamond
      (by decide) (by decide) (by decide) 2).2 3 3 (by decide) (by decide)⟩

/-- C3: For every CSR graph and every source vertex, the k-hop batch
relaxer (`run_khop`) produces the same final distances as the baseline
solver: finite distances agree within a small epsilon, and the two
distances are `+∞` (`none`) together.  In the exact-rational model the
labelings are identical. -/
theorem C3_khop_matches_baseline (G : CSR) (s f₁ f₂ : ℕ)
    (l₁ l₂ : List (Option ℚ)) (hw : NonnegW G)
    (h₁ : runKhop G s f₁ = some l₁) (h₂ : runBaseline G s f₂ = some l₂) :
    ∀ v : ℕ, (l₁.getD v none = none ↔ l₂.getD v none = none) ∧
      ∀ q₁ q₂, l₁.getD v none = some q₁ → l₂.getD v none = some q₂ →
        |q₁ - q₂| ≤ (G.m : ℚ) * machEps := by
  obtain ⟨st₁, hrun₁, hl₁⟩ := Option.map_eq_some'.mp h₁
  obtain ⟨st₂, hrun₂, hl₂⟩ := Option.map_eq_some'.mp h₂
  obtain ⟨hS₁, hT₁⟩ := runBk_sound_sat (deltaDefault_pos G) hw khopK f₁ st₁ hrun₁
  obtain ⟨hS₂, hT₂⟩ := runD_sound_sat hw f₂ st₂ hrun₂
  have heq : ∀ v, st₁.dist v = st₂.dist v := dist_unique hS₁ hT₁ hS₂ hT₂
  have hll : l₁ = l₂ := by
    rw [← hl₁, ← hl₂]
    exact distsOf_eq heq
  subst hll
  intro v
  refine ⟨Iff.rfl, ?_⟩
  intro q₁ q₂ hq₁ hq₂
  rw [hq₁] at hq₂
  cases hq₂
  rw [sub_self, abs_zero]
  have h24 : (0 : ℚ) ≤ machEps := by norm_num [machEps]
  exact mul_nonneg (Nat.cast_nonneg _) h24

/-- Line graph of spec scenario S2: 5 vertices in a path with unit
weights. -/
def G2line : CSR := ⟨[0, 1, 2, 3, 4, 4], [1, 2, 3, 4], [1, 1, 1, 1]⟩

/-- Expected distances of the line graph from source 0. -/
def distsLine : List (Option ℚ) :=
  [some 0, some 1, some 2, some 3, some 4]

theorem C3_khop_matches_baseline_witness :
    runKhop G2line 0 30 = some distsLine ∧
    runBaseline G2line 0 30 = some distsLine ∧
    |(4 : ℚ) - 4| ≤ (G2line.m : ℚ) * machEps :=
  ⟨by decide, by decide,
    (C3_khop_matches_baseline G2line 0 30 30 distsLine distsLine
      (by decide) (by decide) (by decide) 4).2 4 4 (by decide) (by decide)⟩

/-- C4: For any fixed graph, source, and candidate delta-multiplier set,
two runs of the autotune solver (`run_stoc_autotune`) produce identical
final distances, even though the wall times of the probes (modelled by
the explicit timing oracles `t₁`, `t₂`) may differ between the runs and
may select different δ values. -/
theorem C4_autotune_deterministic (G : CSR) (s : ℕ)
    (mults t₁ t₂ : List ℚ) (f₁ f₂ : ℕ) (l₁ l₂ : List (Option ℚ))
    (hw : NonnegW G) (hm : ∀ mu ∈ mults, 0 < mu)
    (h₁ : runStocAutotune G s mults t₁ f₁ = some l₁)
    (h₂ : runStocAutotune G s mults t₂ f₂ = some l₂) :
    l₁ = l₂ := by
  obtain ⟨st₁, hrun₁, hl₁⟩ := Option.map_eq_some'.mp h₁
  obtain ⟨st₂, hrun₂, hl₂⟩ := Option.map_eq_some'.mp h₂
  have hδ₁ : 0 < deltaDefault G * chooseMult mults t₁ :=
    mul_pos (deltaDefault_pos G) (chooseMult_pos hm)
  have hδ₂ : 0 < deltaDefault G * chooseMult mults t₂ :=
    mul_pos (deltaDefault_pos G) (chooseMult_pos hm)
  obtain ⟨hS₁, hT₁⟩ := runBk_sound_sat hδ₁ hw f₁ f₁ st₁ hrun₁
  obtain ⟨hS₂, hT₂⟩ := runBk_sound_sat hδ₂ hw f₂ f₂ st₂ hrun₂
  rw [← hl₁, ← hl₂]
  exact distsOf_eq (dist_unique hS₁ hT₁ hS₂ hT₂)

theorem C4_autotune_deterministic_witness :
    runStocAutotune G3diamond 0 [1/2, 1, 2, 4] [5, 1, 9, 9] 30 =
        some distsDiamond ∧
      runStocAutotune G3diamond 0 [1/2, 1, 2, 4] [9, 9, 1, 9] 30 =
        some distsDiamond ∧
      distsDiamond = distsDiamond :=
  ⟨by decide, by decide,
    C4_autotune_deterministic G3diamond 0 [1/2, 1, 2, 4] [5, 1, 9, 9]
      [9, 9, 1, 9] 30 30 distsDiamond distsDiamond (by decide) (by decide)
      (by decide) (by decide)⟩

lemma adaptGo_probe_band {G : CSR} {s W fuel : ℕ} {Rlo Rhi : ℚ}
    {cap : ℕ} :
    ∀ (a : ℕ) (δ : ℚ) (used : ℕ) (r : AdaptResult) (ρ : ℚ),
    adaptGo G s W fuel Rlo Rhi cap a δ used = some r →
    r.restarts < cap → r.probeFrac = some ρ →
    Rlo ≤ ρ ∧ ρ ≤ Rhi := by
  intro a
  induction a with
  | zero =>
      intro δ used r ρ h
      cases h
  | succ a ih =>
      intro δ used r ρ h hr hρ
      unfold adaptGo at h
      by_cases h2 : (runBkN G δ fuel W (initB s)).2
      · rw [if_pos h2] at h
        cases h
        cases hρ
      · rw [if_neg h2] at h
        by_cases h3 : (heavyFracOf (runBkN G δ fuel W (initB s)).1 < Rlo ∨
            Rhi < heavyFracOf (runBkN G δ fuel W (initB s)).1) ∧ used < cap
        · rw [if_pos h3] at h
          exact ih _ _ _ _ h hr hρ
        · rw [if_neg h3] at h
          cases hrunF : runBk G δ fuel fuel (runBkN G δ fuel W (initB s)).1 with
          | none =>
              rw [hrunF] at h
              cases h
          | some stF =>
              rw [hrunF] at h
              cases h
              cases hρ
              have hnot : ¬(heavyFracOf (runBkN G δ fuel W (initB s)).1 < Rlo ∨
                  Rhi < heavyFracOf (runBkN G δ fuel W (initB s)).1) :=
                fun hor => h3 ⟨hor, hr⟩
              exact ⟨le_of_not_lt (fun h' => hnot (Or.inl h')),
                le_of_not_lt (fun h' => hnot (Or.inr h'))⟩

/-- Final restarts count of an adaptive run (0 when the run failed). -/
def adaptRestarts (o : Option AdaptResult) : ℕ :=
  match o with
  | some r => r.restarts
  | none => 0

/-- Final observed heavy-ratio of an adaptive run (0 when the run
failed). -/
def adaptHeavyFrac (o : Option AdaptResult) : ℚ :=
  match o with
  | some r => r.heavyFrac
  | none => 0

/-- Single heavy edge graph (two vertices, one edge of weight 5). -/
def G1edge : CSR := ⟨[0, 1, 1], [1], [5]⟩

/-- C5 counterexample: on the two-vertex graph `G1edge` the adaptive
solve (default probe window 16, band [0.05, 0.25], restart cap 2)
terminates before the probe window is ever reached: it ends with
`restarts = 0 < 2`, yet its observed heavy-ratio is `0`, strictly below
`R_lo` — so the claimed band containment for every terminating solve
with `restarts < restart_cap` is false as stated.  (All relaxations here
are light because the default δ equals the single weight.) -/
theorem C5_heavy_band_counterexample :
    (runStocAutoAdapt G1edge 0 20 probeWindowDefault bandLoDefault
        bandHiDefault restartCapDefault).isSome = true ∧
      adaptRestarts (runStocAutoAdapt G1edge 0 20 probeWindowDefault
        bandLoDefault bandHiDefault restartCapDefault) < restartCapDefault ∧
      adaptHeavyFrac (runStocAutoAdapt G1edge 0 20 probeWindowDefault
        bandLoDefault bandHiDefault restartCapDefault) < bandLoDefault := by
  decide

/-- C5 (amended): for the adaptive variant (`run_stoc_auto_adapt`), on
every solve that terminates with `restarts` strictly below
`restart_cap` *and whose final attempt reaches the probe window* (so a
heavy-ratio inspection actually occurs, reported in `probeFrac`), the
heavy-ratio observed at that probe inspection lies within the configured
band `[R_lo, R_hi]` (defaults `[0.05, 0.25]`).  A solve that ends before
the probe window is never inspected, and the cumulative ratio at
termination can drift from the inspected one, so the band can only be
guaranteed at the inspection point. -/
theorem C5_heavy_band_at_probe (G : CSR) (s fuel W : ℕ) (Rlo Rhi : ℚ)
    (cap : ℕ) (r : AdaptResult) (ρ : ℚ)
    (h : runStocAutoAdapt G s fuel W Rlo Rhi cap = some r)
    (hr : r.restarts < cap) (hρ : r.probeFrac = some ρ) :
    Rlo ≤ ρ ∧ ρ ≤ Rhi :=
  adaptGo_probe_band (cap + 1) (deltaDefault G) 0 r ρ h hr hρ

/-- Star graph: source 0 with four light unit edges and one heavy edge
of weight 10 (default δ is 1.4). -/
def G6star : CSR := ⟨[0, 5, 5, 5, 5, 5, 5], [1, 2, 3, 4, 5], [1, 1, 1, 1, 10]⟩

/-- Adaptive result on `G6star` with probe window 1: the probe inspects
the heavy ratio 1/5 (inside the default band) and the run continues to
completion without restarting. -/
def adaptStarResult : AdaptResult :=
  ⟨[some 0, some 1, some 1, some 1, some 1, some 10], 0, some (1/5), 1/5⟩

theorem C5_heavy_band_at_probe_witness :
    runStocAutoAdapt G6star 0 40 1 bandLoDefault bandHiDefault 2 =
        some adaptStarResult ∧
      (bandLoDefault ≤ 1/5 ∧ (1 : ℚ)/5 ≤ bandHiDefault) :=
  ⟨by decide,
    C5_heavy_band_at_probe G6star 0 40 1 bandLoDefault bandHiDefault 2
      adaptStarResult (1/5) (by decide) (by decide) (by decide)⟩

/-!
Counter monotonicity (spec section 8, property 4).  The counters reported
in `result_info` — `relaxations`, `light_relaxations`,
`heavy_relaxations`, `settled` — never decrease during a solve, and the
light/heavy split never exceeds the total.
-/

/-- Counter ordering on bucket-solver states: all four reported counters
are component-wise non-decreasing. -/
def CLE (a b : BState) : Prop :=
  a.relaxations ≤ b.relaxations ∧ a.lightRelax ≤ b.lightRelax ∧
    a.heavyRelax ≤ b.heavyRelax ∧ a.settled ≤ b.settled

/-- Counter ordering on baseline states. -/
def DCLE (a b : DState) : Prop :=
  a.relaxations ≤ b.relaxations ∧ a.lightRelax ≤ b.lightRelax ∧
    a.heavyRelax ≤ b.heavyRelax ∧ a.settled ≤ b.settled

lemma cle_self (a : BState) : CLE a a :=
  ⟨le_refl _, le_refl _, le_refl _, le_refl _⟩

lemma cle_comp {a b c : BState} (h₁ : CLE a b) (h₂ : CLE b c) : CLE a c :=
  ⟨le_trans h₁.1 h₂.1, le_trans h₁.2.1 h₂.2.1, le_trans h₁.2.2.1 h₂.2.2.1,
    le_trans h₁.2.2.2 h₂.2.2.2⟩

lemma dcle_self (a : DState) : DCLE a a :=
  ⟨le_refl _, le_refl _, le_refl _, le_refl _⟩

lemma dcle_comp {a b c : DState} (h₁ : DCLE a b) (h₂ : DCLE b c) :
    DCLE a c :=
  ⟨le_trans h₁.1 h₂.1, le_trans h₁.2.1 h₂.2.1, le_trans h₁.2.2.1 h₂.2.2.1,
    le_trans h₁.2.2.2 h₂.2.2.2⟩

lemma relaxBk_cle (L : Bool) (δ : ℚ) (i : ℕ) (d : ℚ) (st : BState)
    (p : ℕ × ℚ) : CLE st (relaxBk L δ i d st p) := by
  rcases relaxBk_cases L δ i d st p with ⟨heq, _⟩ | ⟨heq, _⟩
  · rw [heq]
    exact cle_self st
  · rw [heq]
    refine ⟨Nat.le_succ _, ?_, ?_, le_refl _⟩ <;> cases L <;> simp [upd]

lemma foldl_relaxBk_cle (L : Bool) (δ : ℚ) (i : ℕ) (d : ℚ) :
    ∀ (l : List (ℕ × ℚ)) (st : BState),
    CLE st (l.foldl (relaxBk L δ i d) st) := by
  intro l
  induction l with
  | nil => intro st; exact cle_self st
  | cons p rest ih =>
      intro st
      rw [List.foldl_cons]
      exact cle_comp (relaxBk_cle L δ i d st p) (ih _)

lemma drainE_cle (G : CSR) (δ : ℚ) (i : ℕ) (acc : BState × List ℕ)
    (e : ℕ × ℕ × ℚ) : CLE acc.1 (drainE G δ i acc e).1 := by
  unfold drainE
  by_cases h : acc.1.dist e.2.1 = some e.2.2
  · rw [if_pos h]
    refine cle_comp (b := { acc.1 with settled := acc.1.settled + 1 }) ?_ ?_
    · exact ⟨le_refl _, le_refl _, le_refl _, Nat.le_succ _⟩
    · exact foldl_relaxBk_cle true δ i e.2.2 _ _
  · rw [if_neg h]
    exact cle_self _

lemma foldl_drainE_cle (G : CSR) (δ : ℚ) (i : ℕ) :
    ∀ (cur : List (ℕ × ℕ × ℚ)) (acc : BState × List ℕ),
    CLE acc.1 ((cur.foldl (drainE G δ i) acc).1) := by
  intro cur
  induction cur with
  | nil => intro acc; exact cle_self _
  | cons e rest ih =>
      intro acc
      rw [List.foldl_cons]
      exact cle_comp (drainE_cle G δ i acc e) (ih _)

lemma lightLoop_cle (G : CSR) (δ : ℚ) (i : ℕ) :
    ∀ (passes : ℕ) (first : Bool) (st : BState) (R : List ℕ),
    CLE st (lightLoop G δ i passes first st R).1 := by
  intro passes
  induction passes with
  | zero => intro first st R; exact cle_self st
  | succ p ih =>
      intro first st R
      by_cases hcur : (st.entries.filter (fun e => e.1 == i)).isEmpty
      · simp only [lightLoop, hcur, if_true]
        exact cle_self st
      · simp only [lightLoop, hcur, if_false]
        refine cle_comp (b := { st with
          entries := st.entries.filter (fun e => !(e.1 == i)),
          lightPassRepeats := st.lightPassRepeats +
            (if first then 0 else 1) }) ?_ ?_
        · exact ⟨le_refl _, le_refl _, le_refl _, le_refl _⟩
        · exact cle_comp
            (foldl_drainE_cle G δ i (st.entries.filter (fun e => e.1 == i))
              ({ st with
                entries := st.entries.filter (fun e => !(e.1 == i)),
                lightPassRepeats := st.lightPassRepeats +
                  (if first then 0 else 1) }, R))
            (ih false _ _)

lemma heavyE_cle (G : CSR) (δ : ℚ) (i : ℕ) (st : BState) (u : ℕ) :
    CLE st (heavyE G δ i st u) := by
  unfold heavyE
  cases h : st.dist u with
  | none => exact cle_self st
  | some q => exact foldl_relaxBk_cle false δ i q _ _

lemma foldl_heavyE_cle (G : CSR) (δ : ℚ) (i : ℕ) :
    ∀ (R : List ℕ) (st : BState), CLE st (R.foldl (heavyE G δ i) st) := by
  intro R
  induction R with
  | nil => intro st; exact cle_self st
  | cons u rest ih =>
      intro st
      rw [List.foldl_cons]
      exact cle_comp (heavyE_cle G δ i st u) (ih _)

lemma stepOuter_eq_of_none {G : CSR} {δ : ℚ} {pl : ℕ} {st : BState}
    (h : minKey st.entries = none) : stepOuter G δ pl st = st := by
  unfold stepOuter
  rw [h]

lemma stepOuter_eq_of_some {G : CSR} {δ : ℚ} {pl : ℕ} {st : BState} {i : ℕ}
    (h : minKey st.entries = some i) :
    stepOuter G δ pl st =
      ((lightLoop G δ i pl true (bumpCursor st i) []).2).foldl
        (heavyE G δ i)
        ((lightLoop G δ i pl true (bumpCursor st i) []).1) := by
  unfold stepOuter
  rw [h]

lemma stepOuter_cle (G : CSR) (δ : ℚ) (pl : ℕ) (st : BState) :
    CLE st (stepOuter G δ pl st) := by
  cases hmk : minKey st.entries with
  | none =>
      rw [stepOuter_eq_of_none hmk]
      exact cle_self st
  | some i =>
      rw [stepOuter_eq_of_some hmk]
      have h₁ : CLE st (bumpCursor st i) :=
        ⟨le_refl _, le_refl _, le_refl _, le_refl _⟩
      exact cle_comp h₁ (cle_comp (lightLoop_cle G δ i pl true _ [])
        (foldl_heavyE_cle G δ i _ _))

lemma iterOuter_cle_succ (G : CSR) (δ : ℚ) (pl : ℕ) :
    ∀ (k : ℕ) (st : BState),
    CLE (iterOuter G δ pl k st) (iterOuter G δ pl (k + 1) st) := by
  intro k
  induction k with
  | zero =>
      intro st
      show CLE st (iterOuter G δ pl 1 st)
      unfold iterOuter
      by_cases he : st.entries.isEmpty
      · rw [if_pos he]
        exact cle_self st
      · rw [if_neg he]
        exact stepOuter_cle G δ pl st
  | succ k ih =>
      intro st
      show CLE (iterOuter G δ pl (k + 1) st) (iterOuter G δ pl (k + 2) st)
      unfold iterOuter
      by_cases he : st.entries.isEmpty
      · rw [if_pos he, if_pos he]
        exact cle_self st
      · rw [if_neg he, if_neg he]
        exact ih (stepOuter G δ pl st)

/-- The light/heavy split never exceeds the total relaxation count. -/
def SplitLE (st : BState) : Prop :=
  st.lightRelax + st.heavyRelax ≤ st.relaxations

lemma relaxBk_split (L : Bool) (δ : ℚ) (i : ℕ) (d : ℚ) (st : BState)
    (p : ℕ × ℚ) (h : SplitLE st) : SplitLE (relaxBk L δ i d st p) := by
  rcases relaxBk_cases L δ i d st p with ⟨heq, _⟩ | ⟨heq, _⟩
  · rw [heq]; exact h
  · rw [heq]
    unfold SplitLE at h ⊢
    cases L <;> simp [upd] <;> omega

lemma foldl_relaxBk_split (L : Bool) (δ : ℚ) (i : ℕ) (d : ℚ) :
    ∀ (l : List (ℕ × ℚ)) (st : BState),
    SplitLE st → SplitLE (l.foldl (relaxBk L δ i d) st) := by
  intro l
  induction l with
  | nil => intro st h; exact h
  | cons p rest ih =>
      intro st h
      rw [List.foldl_cons]
      exact ih _ (relaxBk_split L δ i d st p h)

lemma drainE_split (G : CSR) (δ : ℚ) (i : ℕ) (acc : BState × List ℕ)
    (e : ℕ × ℕ × ℚ) (h : SplitLE acc.1) : SplitLE (drainE G δ i acc e).1 := by
  unfold drainE
  by_cases hf : acc.1.dist e.2.1 = some e.2.2
  · rw [if_pos hf]
    exact foldl_relaxBk_split true δ i e.2.2 _ _ h
  · rw [if_neg hf]
    exact h

lemma foldl_drainE_split (G : CSR) (δ : ℚ) (i : ℕ) :
    ∀ (cur : List (ℕ × ℕ × ℚ)) (acc : BState × List ℕ),
    SplitLE acc.1 → SplitLE ((cur.foldl (drainE G δ i) acc).1) := by
  intro cur
  induction cur with
  | nil => intro acc h; exact h
  | cons e rest ih =>
      intro acc h
      rw [List.foldl_cons]
      exact ih _ (drainE_split G δ i acc e h)

lemma lightLoop_split (G : CSR) (δ : ℚ) (i : ℕ) :
    ∀ (passes : ℕ) (first : Bool) (st : BState) (R : List ℕ),
    SplitLE st → SplitLE (lightLoop G δ i passes first st R).1 := by
  intro passes
  induction passes with
  | zero => intro first st R h; exact h
  | succ p ih =>
      intro first st R h
      by_cases hcur : (st.entries.filter (fun e => e.1 == i)).isEmpty
      · simp only [lightLoop, hcur, if_true]
        exact h
      · simp only [lightLoop, hcur, if_false]
        exact ih false _ _ (foldl_drainE_split G δ i _ _ h)

lemma heavyE_split (G : CSR) (δ : ℚ) (i : ℕ) (st : BState) (u : ℕ)
    (h : SplitLE st) : SplitLE (heavyE G δ i st u) := by
  unfold heavyE
  cases hd : st.dist u with
  | none => exact h
  | some q => exact foldl_relaxBk_split false δ i q _ _ h

lemma foldl_heavyE_split (G : CSR) (δ : ℚ) (i : ℕ) :
    ∀ (R : List ℕ) (st : BState),
    SplitLE st → SplitLE (R.foldl (heavyE G δ i) st) := by
  intro R
  induction R with
  | nil => intro st h; exact h
  | cons u rest ih =>
      intro st h
      rw [List.foldl_cons]
      exact ih _ (heavyE_split G δ i st u h)

lemma stepOuter_split (G : CSR) (δ : ℚ) (pl : ℕ) (st : BState)
    (h : SplitLE st) : SplitLE (stepOuter G δ pl st) := by
  cases hmk : minKey st.entries with
  | none =>
      rw [stepOuter_eq_of_none hmk]
      exact h
  | some i =>
      rw [stepOuter_eq_of_some hmk]
      exact foldl_heavyE_split G δ i _ _ (lightLoop_split G δ i pl true _ [] h)

lemma iterOuter_split (G : CSR) (δ : ℚ) (pl : ℕ) :
    ∀ (k : ℕ) (st : BState),
    SplitLE st → SplitLE (iterOuter G δ pl k st) := by
  intro k
  induction k with
  | zero => intro st h; exact h
  | succ k ih =>
      intro st h
      unfold iterOuter
      by_cases he : st.entries.isEmpty
      · rw [if_pos he]
        exact h
      · rw [if_neg he]
        exact ih _ (stepOuter_split G δ pl st h)

lemma relaxD_dcle (d : ℚ) (st : DState) (p : ℕ × ℚ) :
    DCLE st (relaxD d st p) := by
  rcases relaxD_cases d st p with ⟨heq, _⟩ | ⟨heq, _⟩
  · rw [heq]
    exact dcle_self st
  · rw [heq]
    exact ⟨Nat.le_succ _, le_refl _, le_refl _, le_refl _⟩

lemma foldl_relaxD_dcle (d : ℚ) :
    ∀ (l : List (ℕ × ℚ)) (st : DState),
    DCLE st (l.foldl (relaxD d) st) := by
  intro l
  induction l with
  | nil => intro st; exact dcle_self st
  | cons p rest ih =>
      intro st
      rw [List.foldl_cons]
      exact dcle_comp (relaxD_dcle d st p) (ih _)

lemma stepD_dcle (G : CSR) (st : DState) : DCLE st (stepD G st) := by
  cases hpop : popMin st.heap with
  | none =>
      rw [stepD_eq_of_none hpop]
      exact dcle_self st
  | some pr =>
      obtain ⟨e, rest⟩ := pr
      cases hdu : st.dist e.2 with
      | none =>
          rw [stepD_eq_of_dist_none hpop hdu]
          exact ⟨le_refl _, le_refl _, le_refl _, le_refl _⟩
      | some q =>
          by_cases hstale : q < e.1
          · rw [stepD_eq_of_stale hpop hdu hstale]
            exact ⟨le_refl _, le_refl _, le_refl _, le_refl _⟩
          · rw [stepD_eq_of_expand hpop hdu hstale]
            have h₁ : DCLE st
                { st with heap := rest, settled := st.settled + 1 } :=
              ⟨le_refl _, le_refl _, le_refl _, Nat.le_succ _⟩
            exact dcle_comp h₁ (foldl_relaxD_dcle e.1 _ _)

lemma iterD_dcle_succ (G : CSR) :
    ∀ (k : ℕ) (st : DState), DCLE (iterD G k st) (iterD G (k + 1) st) := by
  intro k
  induction k with
  | zero =>
      intro st
      show DCLE st (iterD G 1 st)
      unfold iterD
      by_cases he : st.heap.isEmpty
      · rw [if_pos he]
        exact dcle_self st
      · rw [if_neg he]
        exact stepD_dcle G st
  | succ k ih =>
      intro st
      show DCLE (iterD G (k + 1) st) (iterD G (k + 2) st)
      unfold iterD
      by_cases he : st.heap.isEmpty
      · rw [if_pos he, if_pos he]
        exact dcle_self st
      · rw [if_neg he, if_neg he]
        exact ih (stepD G st)

/-- The light/heavy split bound on baseline states. -/
def DSplitLE (st : DState) : Prop :=
  st.lightRelax + st.heavyRelax ≤ st.relaxations

lemma relaxD_dsplit (d : ℚ) (st : DState) (p : ℕ × ℚ) (h : DSplitLE st) :
    DSplitLE (relaxD d st p) := by
  rcases relaxD_cases d st p with ⟨heq, _⟩ | ⟨heq, _⟩
  · rw [heq]; exact h
  · rw [heq]
    unfold DSplitLE at h ⊢
    exact le_trans h (Nat.le_succ _)

lemma foldl_relaxD_dsplit (d : ℚ) :
    ∀ (l : List (ℕ × ℚ)) (st : DState),
    DSplitLE st → DSplitLE (l.foldl (relaxD d) st) := by
  intro l
  induction l with
  | nil => intro st h; exact h
  | cons p rest ih =>
      intro st h
      rw [List.foldl_cons]
      exact ih _ (relaxD_dsplit d st p h)

lemma stepD_dsplit (G : CSR) (st : DState) (h : DSplitLE st) :
    DSplitLE (stepD G st) := by
  cases hpop : popMin st.heap with
  | none =>
      rw [stepD_eq_of_none hpop]
      exact h
  | some pr =>
      obtain ⟨e, rest⟩ := pr
      cases hdu : st.dist e.2 with
      | none =>
          rw [stepD_eq_of_dist_none hpop hdu]
          exact h
      | some q =>
          by_cases hstale : q < e.1
          · rw [stepD_eq_of_stale hpop hdu hstale]
            exact h
          · rw [stepD_eq_of_expand hpop hdu hstale]
            exact foldl_relaxD_dsplit e.1 _ _ h

lemma iterD_dsplit (G : CSR) :
    ∀ (k : ℕ) (st : DState), DSplitLE st → DSplitLE (iterD G k st) := by
  intro k
  induction k with
  | zero => intro st h; exact h
  | succ k ih =>
      intro st h
      unfold iterD
      by_cases he : st.heap.isEmpty
      · rw [if_pos he]
        exact h
      · rw [if_neg he]
        exact ih _ (stepD_dsplit G st h)

/-- C6: Throughout every solve,
`light_relaxations + heavy_relaxations ≤ relaxations`, and every counter
reported in `result_info` (`relaxations`, `light_relaxations`,
`heavy_relaxations`, `settled`) is non-decreasing over the course of the
solve.  States reached after `k` iterations of the bucket solver's outer
loop (any δ and pass limit, hence both the delta-stepping and k-hop
variants) and of the baseline solver's pop loop satisfy the split bound,
and each further iteration only grows the counters. -/
theorem C6_counters_monotone (G : CSR) (δ : ℚ) (pl s k : ℕ) :
    SplitLE (iterOuter G δ pl k (initB s)) ∧
      CLE (iterOuter G δ pl k (initB s))
        (iterOuter G δ pl (k + 1) (initB s)) ∧
      DSplitLE (iterD G k (initD s)) ∧
      DCLE (iterD G k (initD s)) (iterD G (k + 1) (initD s)) := by
  refine ⟨?_, iterOuter_cle_succ G δ pl k (initB s), ?_,
    iterD_dcle_succ G k (initD s)⟩
  · exact iterOuter_split G δ pl k (initB s) (le_refl 0)
  · exact iterD_dsplit G k (initD s) (le_refl 0)

/-!
Embedding of the Python ctypes wrapper (`rust_sssp.py`, present in the
source tree).  Machine integers (`c_uint64`, `c_uint32`) are modelled by
`ℕ`, signed 32-bit codes by `ℤ`, `c_float` values by `ℚ`.  The engine is
opaque to the wrapper: one engine call is an arbitrary `EngineOut` record
(return code plus output buffers), so the wrapper theorems quantify over
every possible engine behavior.
-/

/-- The `SsspResultInfo` ctypes structure (rust_sssp.py, lines 21-28). -/
structure SsspResultInfo where
  relaxations : ℕ
  light_relaxations : ℕ
  heavy_relaxations : ℕ
  settled : ℕ
  error_code : ℤ
deriving DecidableEq

/-- One engine call: the return code of the FFI function together with
the contents of the output buffers it filled. -/
structure EngineOut where
  rc : ℤ
  dist : List ℚ
  pred : List ℤ
  info : SsspResultInfo
deriving DecidableEq

/-- The value returned by `_run` on success: the dist/pred lists and the
stats dictionary (rust_sssp.py, lines 149-160). -/
structure RunOut where
  dist : List ℚ
  pred : List ℤ
  relaxations : ℕ
  light_relaxations : ℕ
  heavy_relaxations : ℕ
  settled : ℕ
  version : ℕ
  variant : String
deriving DecidableEq

/-- The `_run` wrapper (rust_sssp.py, lines 124-160): call the selected
engine entry point; raise `RuntimeError` naming the code when the return
code is non-zero, otherwise return the dist list, pred list and info
dictionary. -/
def pyRun (version : ℕ) (variant : String) (e : EngineOut) :
    Except String RunOut :=
  if e.rc ≠ 0 then
    Except.error ("Rust core returned error " ++ toString e.rc)
  else
    Except.ok ⟨e.dist, e.pred, e.info.relaxations, e.info.light_relaxations,
      e.info.heavy_relaxations, e.info.settled, version, variant⟩

/-- C2: Every solve entry point returns 0 and valid dist/pred/result_info
on success and a non-zero error code on any failure; the wrapper `_run`
raises a `RuntimeError` naming the non-zero code and returns no dist/pred
lists, so a caller never consumes partial output from a failed solve.
Quantifying over every engine outcome `e`: a non-zero return code yields
exactly the raising branch (an `Except.error` carrying no buffers), and a
zero code yields the full output tuple. -/
theorem C2_run_error_handling (version : ℕ) (variant : String)
    (e : EngineOut) :
    (e.rc ≠ 0 → pyRun version variant e =
      Except.error ("Rust core returned error " ++ toString e.rc)) ∧
    (e.rc = 0 → pyRun version variant e = Except.ok
      ⟨e.dist, e.pred, e.info.relaxations, e.info.light_relaxations,
        e.info.heavy_relaxations, e.info.settled, version, variant⟩) := by
  constructor
  · intro h
    unfold pyRun
    rw [if_pos h]
  · intro h
    unfold pyRun
    rw [if_neg (fun hne => hne h)]

/-- An engine call that failed with code 7. -/
def engineFail : EngineOut := ⟨7, [], [], ⟨0, 0, 0, 0, 0⟩⟩

theorem C2_run_error_handling_witness :
    pyRun 1 ("stoc") engineFail =
        Except.error ("Rust core returned error " ++ toString (7 : ℤ)) ∧
      (7 : ℤ) ≠ 0 :=
  ⟨(C2_run_error_handling 1 ("stoc") engineFail).1 (by decide), by decide⟩

/-- The `_BucketStats` ctypes structure (rust_sssp.py, line 57): scalar
reals are transmitted as fixed-point ×1000 unsigned integers. -/
structure BucketStatsRaw where
  buckets_visited : ℕ
  light_pass_repeats : ℕ
  max_bucket_index : ℕ
  restarts : ℕ
  delta_x1000 : ℕ
  heavy_ratio_x1000 : ℕ
deriving DecidableEq

/-- The dictionary built by `get_bucket_stats`; the `delta` and
`heavy_frac` fields model the Python keys `delta` and `heavy_ratio`. -/
structure BucketStatsOut where
  buckets_visited : ℕ
  light_pass_repeats : ℕ
  max_bucket_index : ℕ
  restarts : ℕ
  delta : ℚ
  heavy_frac : ℚ
deriving DecidableEq

/-- The `get_bucket_stats` wrapper (rust_sssp.py, lines 63-74): `None`
when the bucket-stats FFI symbols are absent; otherwise the transmitted
record with the two fixed-point fields divided by 1000. -/
def get_bucket_stats (hasStats : Bool) (raw : BucketStatsRaw) :
    Option BucketStatsOut :=
  if hasStats then
    some ⟨raw.buckets_visited, raw.light_pass_repeats, raw.max_bucket_index,
      raw.restarts, (raw.delta_x1000 : ℚ) / 1000,
      (raw.heavy_ratio_x1000 : ℚ) / 1000⟩
  else none

/-- C7: Whenever the bucket-stats FFI symbols are present,
`get_bucket_stats` returns a record whose `delta` field equals the
transmitted fixed-point integer `delta_x1000` divided by 1000 and whose
`heavy_ratio` field equals `heavy_ratio_x1000` divided by 1000, with
`buckets_visited`, `light_pass_repeats`, `max_bucket_index`, and
`restarts` passed through unchanged. -/
theorem C7_bucket_stats_decode (raw : BucketStatsRaw) :
    get_bucket_stats true raw =
      some ⟨raw.buckets_visited, raw.light_pass_repeats,
        raw.max_bucket_index, raw.restarts, (raw.delta_x1000 : ℚ) / 1000,
        (raw.heavy_ratio_x1000 : ℚ) / 1000⟩ := by
  unfold get_bucket_stats
  rw [if_pos rfl]

/-- Top-level names defined by the module `rust_sssp`
(src/implementations/python/rust_sssp.py). -/
def rust_sssp_defs : List String :=
  ["LIB_PATH_CANDIDATES", "_lib", "SsspResultInfo", "_HAS_STOC",
    "_HAS_STOC_AUTOTUNE", "_HAS_STOC_AUTO_ADAPT", "_HAS_KHOP",
    "_HAS_DEFAULT", "_BucketStats", "_HAS_BUCKET_STATS",
    "get_bucket_stats", "_BaselineHeapStats", "_HAS_BASE_HEAP",
    "get_baseline_heap_stats", "run_baseline", "run_optimized",
    "run_hybrid", "run_stoc", "run_stoc_autotune", "run_stoc_auto_adapt",
    "run_khop", "run_default", "_run"]

/-- Names imported from `rust_sssp` by the benchmark harness
(src/implementations/python/benchmark_rust_variants.py, lines 6-7). -/
def benchmark_variant_imports : List String :=
  ["run_baseline", "_HAS_SPEC_CLEAN", "run_spec_clean",
    "get_baseline_heap_stats", "get_spec_heap_stats"]

/-- C8: The claim states that the engine surface (module `rust_sssp`)
defines `run_spec_clean`, `_HAS_SPEC_CLEAN` and `get_spec_heap_stats`,
so that the benchmark harnesses importing those names load successfully.
The module defines none of the three (while `run_stoc` is present), so
the harness import list is not satisfied: evaluating the import of
benchmark_rust_variants.py against the module's definitions fails — the
code contradicts its own callers (an `ImportError` at load time). -/
theorem C8_spec_clean_names_missing :
    "run_spec_clean" ∉ rust_sssp_defs ∧
      "_HAS_SPEC_CLEAN" ∉ rust_sssp_defs ∧
      "get_spec_heap_stats" ∉ rust_sssp_defs ∧
      benchmark_variant_imports.all
        (fun nm => rust_sssp_defs.contains nm) = false ∧
      "run_stoc" ∈ rust_sssp_defs := by
  decide

/-- The `run_optimized` wrapper (rust_sssp.py, lines 92-93): raises
unconditionally, ignoring its arguments and never touching the engine. -/
def run_optimized (_engine : EngineOut → Except String RunOut)
    (_e : EngineOut) : Except String RunOut :=
  Except.error ("Optimized variant removed; only baseline and stoc available")

/-- The `run_hybrid` wrapper (rust_sssp.py, lines 95-96). -/
def run_hybrid (_engine : EngineOut → Except String RunOut)
    (_e : EngineOut) : Except String RunOut :=
  Except.error ("Hybrid variant removed; only baseline and stoc available")

/-- C9: For every input, `run_optimized` and `run_hybrid` unconditionally
raise a `RuntimeError` stating that the variant was removed; they never
invoke the engine and never return a result.  Modelled by quantifying
over the engine function and the call arguments: the result is always the
removal error and is independent of the engine. -/
theorem C9_removed_variants (eng₁ eng₂ : EngineOut → Except String RunOut)
    (e₁ e₂ : EngineOut) :
    run_optimized eng₁ e₁ = Except.error
        ("Optimized variant removed; only baseline and stoc available") ∧
      run_hybrid eng₁ e₁ = Except.error
        ("Hybrid variant removed; only baseline and stoc available") ∧
      run_optimized eng₁ e₁ = run_optimized eng₂ e₂ ∧
      run_hybrid eng₁ e₁ = run_hybrid eng₂ e₂ :=
  ⟨rfl, rfl, rfl, rfl⟩

/-- The `run_khop` wrapper (rust_sssp.py, lines 113-116): raises when the
k-hop symbol is absent, otherwise dispatches to the engine with the khop
variant tag. -/
def run_khop_py (hasKhop : Bool) (version : ℕ) (e : EngineOut) :
    Except String RunOut :=
  if hasKhop then pyRun version ("khop") e
  else Except.error ("k-hop experimental function not available")

/-- The `run_default` wrapper (rust_sssp.py, lines 118-122): dispatch to
`sssp_run_default` when present, else fall back to `run_khop`. -/
def run_default (hasDefault hasKhop : Bool) (version : ℕ)
    (eDefault eKhop : EngineOut) : Except String RunOut :=
  if hasDefault then pyRun version ("default") eDefault
  else run_khop_py hasKhop version eKhop

/-- C10: When the loaded library lacks the `sssp_run_default` symbol,
`run_default` falls back to `run_khop`, so on every input its result
equals `run_khop`'s result (including the raise when k-hop is also
unavailable); when the symbol is present, `run_default` dispatches to
`sssp_run_default` (the engine call tagged with the default variant). -/
theorem C10_default_fallback (hasKhop : Bool) (version : ℕ)
    (eDefault eKhop : EngineOut) :
    run_default false hasKhop version eDefault eKhop =
        run_khop_py hasKhop version eKhop ∧
      run_default true hasKhop version eDefault eKhop =
        pyRun version ("default") eDefault :=
  ⟨rfl, rfl⟩
